import Mathlib

/-
  Verification development for the webgraph-rs core.

  Each Rust function relevant to the claims is translated into an executable
  Lean definition (shallow embedding).  Machine integers are modelled as `Nat`
  bit patterns with explicit reductions modulo powers of two where the Rust
  code can wrap; fallible code returns `Except String`.
-/

namespace Webgraph

/-! ## Basic machine-integer constants -/

/-- Number of values of a 64-bit machine word. -/
def U64 : Nat := 2 ^ 64

/-- First bit pattern whose top (sign) bit is set in a 64-bit word. -/
def I63 : Nat := 2 ^ 63

/-- Value of the largest usize, as used by the Rust sources (64-bit target). -/
def usizeMAX : Nat := 2 ^ 64 - 1

/-! ## src/utils/mod.rs : int2nat / nat2int

  The Rust functions operate on the raw 64-bit two's complement pattern:

    pub const fn int2nat(x: i64) -> u64 { (x << 1 ^ (x >> 63)) as u64 }
    pub const fn nat2int(x: u64) -> i64 { ((x >> 1) ^ !((x & 1).wrapping_sub(1))) as i64 }

  We model an `i64` by its bit pattern `p : Nat`, `p < 2^64`.  `x << 1` is the
  pattern `(p * 2) % 2^64`; the arithmetic shift `x >> 63` is the all-ones
  pattern when the sign bit is set and zero otherwise; `!((x & 1) - 1)` is
  all-ones exactly when the low bit of `x` is one. -/

def int2nat (p : Nat) : Nat :=
  ((p * 2) % U64) ^^^ (if p < I63 then 0 else U64 - 1)

def nat2int (y : Nat) : Nat :=
  (y / 2) ^^^ (if y % 2 = 1 then U64 - 1 else 0)

/-- Interpret a 64-bit pattern as a signed (two's complement) integer. -/
def patToInt (p : Nat) : Int :=
  if p < I63 then (p : Int) else (p : Int) - (U64 : Int)

/-! ## src/codes/buffered_bit_stream_reader.rs : BufferedBitStreamRead

  Configuration used throughout the repository: backend words are `u32`
  (`WR::Word::BITS = 32`), the bit buffer is a `u64` (`BW::BITS = 64`).
  The backend (`FileBackend`/`MemWordRead`) yields words sequentially and
  fails past the end.  `to_be`/`to_le` are modelled for the little-endian
  hosts the code targets: `to_be` byte-swaps the 32-bit word, `to_le` is the
  identity.  Shifts are mathematical shifts on `Nat` with explicit reduction
  modulo `2^64` where the Rust `u64` arithmetic can wrap. -/

/-- Number of values of a 32-bit machine word. -/
def U32 : Nat := 2 ^ 32

/-- A word-oriented backend: a list of 32-bit words plus a word position. -/
structure WordStream where
  words : List Nat
  pos : Nat
deriving Repr, DecidableEq

/-- read_next_word: return the word at the current position and advance. -/
def wsReadNextWord (ws : WordStream) : Except String (Nat × WordStream) :=
  if h : ws.pos < ws.words.length then
    .ok (ws.words.get ⟨ws.pos, h⟩ % U32, { ws with pos := ws.pos + 1 })
  else
    .error "BackendIo: end of stream"

/-- Byte swap of a 32-bit word. -/
def byteSwap32 (w : Nat) : Nat :=
  (w % 256) * 2 ^ 24 + (w / 2 ^ 8 % 256) * 2 ^ 16 +
    (w / 2 ^ 16 % 256) * 2 ^ 8 + w / 2 ^ 24 % 256

/-- u32::to_be on a little-endian host. -/
def toBe32 (w : Nat) : Nat := byteSwap32 (w % U32)

/-- u32::to_le on a little-endian host. -/
def toLe32 (w : Nat) : Nat := w % U32

/-- State of a BufferedBitStreamRead (either bit order). -/
structure BBSRState where
  backend : WordStream
  buffer : Nat
  validBits : Nat
deriving Repr, DecidableEq

/-- M2L refill (buffered_bit_stream_reader.rs lines 54-67). -/
def m2lRefill (s : BBSRState) : Except String BBSRState :=
  if s.validBits > 32 then .ok s
  else do
    let (w, b) ← wsReadNextWord s.backend
    let v := s.validBits + 32
    .ok { backend := b, buffer := (s.buffer ||| toBe32 w <<< (64 - v)) % U64,
          validBits := v }

/-- M2L read_bits (buffered_bit_stream_reader.rs lines 132-171). -/
def m2lReadBits (s : BBSRState) (nBits : Nat) : Except String (Nat × BBSRState) :=
  if nBits > 64 then .error "BadArgument: more than 64 bits"
  else if nBits = 0 then .ok (0, s)
  else if nBits < s.validBits then
    .ok (s.buffer >>> (64 - nBits),
      { s with validBits := s.validBits - nBits, buffer := s.buffer <<< nBits % U64 })
  else do
    let r0 := s.buffer >>> (64 - s.validBits)
    let (r1, n1, be1) ←
      if nBits > 32 then do
        let (w, b) ← wsReadNextWord s.backend
        pure (((r0 <<< 32) % U64 ||| toBe32 w), nBits - 32, b)
      else
        pure (r0, nBits, s.backend)
    let (w2, be2) ← wsReadNextWord be1
    let nw := toBe32 w2
    let vb := 32 - n1
    let finalBits := nw >>> (64 - n1)
    .ok (((r1 <<< n1) % U64 ||| finalBits),
      { backend := be2, buffer := nw <<< (64 - vb) % U64, validBits := vb })

/-- L2M refill (buffered_bit_stream_reader.rs lines 232-245). -/
def l2mRefill (s : BBSRState) : Except String BBSRState :=
  if s.validBits > 32 then .ok s
  else do
    let (w, b) ← wsReadNextWord s.backend
    .ok { backend := b, buffer := (s.buffer ||| toLe32 w <<< s.validBits) % U64,
          validBits := s.validBits + 32 }

/-- L2M read_bits (buffered_bit_stream_reader.rs lines 310-347). -/
def l2mReadBits (s : BBSRState) (nBits : Nat) : Except String (Nat × BBSRState) :=
  if nBits > 64 then .error "BadArgument: more than 64 bits"
  else if nBits = 0 then .ok (0, s)
  else if nBits < s.validBits then
    .ok (s.buffer <<< (64 - nBits) % U64 >>> (64 - nBits),
      { s with validBits := s.validBits - nBits, buffer := s.buffer >>> nBits })
  else do
    let r0 := s.buffer
    let (r1, n1, be1) ←
      if nBits > 32 then do
        let (w, b) ← wsReadNextWord s.backend
        pure (((r0 <<< 32) % U64 ||| toLe32 w), nBits - 32, b)
      else
        pure (r0, nBits, s.backend)
    let (w2, be2) ← wsReadNextWord be1
    let nw := toLe32 w2
    let finalBits := nw <<< (64 - n1) % U64 >>> (64 - n1)
    .ok (((r1 <<< n1) % U64 ||| finalBits),
      { backend := be2, buffer := nw >>> n1, validBits := 32 - n1 })

/-- Binary length of a natural number, with enough fuel for the fixed-width
  buffers in play (structural recursion so that it evaluates in the kernel). -/
def bitLenAux (fuel n : Nat) : Nat :=
  match fuel with
  | 0 => 0
  | f + 1 => if n = 0 then 0 else bitLenAux f (n / 2) + 1

/-- u64::leading_zeros for values below 2^64. -/
def leadingZeros64 (b : Nat) : Nat := 64 - bitLenAux 64 b

/-- M2L read_unary, non-table path (buffered_bit_stream_reader.rs
  lines 194-221).  The backend words still to be read are passed as an
  explicit list so that the recursion (one word consumed per
  non-returning loop iteration) is structural. -/
def m2lReadUnaryGo (result : Nat) (remaining : List Nat) (ws : WordStream)
    (buffer validBits : Nat) : Except String (Nat × BBSRState) :=
  let zeros := leadingZeros64 buffer
  if zeros < validBits then
    .ok (result + zeros,
      { backend := ws, buffer := buffer <<< (zeros + 1) % U64,
        validBits := validBits - (zeros + 1) })
  else
    match remaining with
    | [] => .error "BackendIo: end of stream"
    | w :: rest =>
        m2lReadUnaryGo (result + validBits) rest
          { ws with pos := ws.pos + 1 }
          (toBe32 (w % U32) <<< 32 % U64) 32

def m2lReadUnary (s : BBSRState) : Except String (Nat × BBSRState) :=
  m2lReadUnaryGo 0 (s.backend.words.drop s.backend.pos) s.backend
    s.buffer s.validBits

/-! ## src/codes/bit_stream.rs : BufferedBitStreamReader

  An earlier prototype of the buffered reader: backend words are `u64`,
  the cache is a `u128`.  `read_bits` drains the buffer from its LOW end
  (LSB-first), while `read_unary` counts the LEADING zeros of the `u128`
  buffer and, on the success path, returns without consuming anything. -/

structure BSReader where
  backend : List Nat
  buffer : Nat
  validBits : Nat
deriving Repr, DecidableEq

/-- Number of values of a 128-bit buffer. -/
def U128 : Nat := 2 ^ 128

/-- refill (bit_stream.rs lines 38-51). -/
def bsRefill (s : BSReader) : Except String BSReader :=
  if s.validBits > 64 then .ok s
  else
    match s.backend with
    | [] => .error "BackendIo: end of stream"
    | w :: rest =>
        .ok { backend := rest,
              buffer := (s.buffer ||| (w % U64) <<< s.validBits) % U128,
              validBits := s.validBits + 64 }

/-- read_bits (bit_stream.rs lines 55-76): returns the lowest bits of the
  buffer.  The Rust code would panic if fewer than nBits valid bits remain
  even after the refill; we model that as an error. -/
def bsReadBits (s : BSReader) (nBits : Nat) : Except String (Nat × BSReader) := do
  let s ← if nBits > s.validBits then bsRefill s else pure s
  if nBits ≤ s.validBits then
    let mask := (U64 - 1) >>> (64 - nBits)
    .ok (s.buffer % U64 &&& mask,
      { s with validBits := s.validBits - nBits, buffer := s.buffer >>> nBits })
  else
    .error "read_bits underflow"

/-- u128::leading_zeros for values below 2^128. -/
def leadingZeros128 (b : Nat) : Nat := 128 - bitLenAux 128 b

/-- read_unary (bit_stream.rs lines 79-98).  Note that on the success path
  (zeros < valid_bits) neither the buffer nor the valid-bit count is
  updated, and that the zeros are counted from the TOP of the buffer even
  though read_bits consumes from the BOTTOM.  The backend is passed apart
  so the recursion is structural. -/
def bsReadUnaryGo (result : Nat) (backend : List Nat) (buffer validBits : Nat) :
    Except String (Nat × BSReader) :=
  let zeros := leadingZeros128 buffer
  if zeros < validBits then .ok (result + zeros, ⟨backend, buffer, validBits⟩)
  else
    match backend with
    | [] => .error "BackendIo: end of stream"
    | w :: rest =>
        bsReadUnaryGo (result + validBits) rest
          (((w % U64) <<< 0 ||| buffer) % U128) 64

def bsReadUnary (s : BSReader) : Except String (Nat × BSReader) :=
  bsReadUnaryGo 0 s.backend s.buffer s.validBits

/-! ## src/graph/bvgraph/code_readers.rs and load.rs : load-time checks

  `Code` is the dsi-bitstream code enum as used by the repository (the
  variants beyond the four supported ones are represented by `golomb`,
  standing for any unsupported variant).  `code_to_const` maps a code to the
  integer constant of `const_codes`; `ConstCodesReader::new` compares each
  per-field code of the parsed `CompFlags` against the compile-time constants
  of the reader.  `parse_properties` checks the declared endianness (missing
  key defaults to big-endian) against the expected one. -/

inductive Code where
  | unary : Code
  | gamma : Code
  | delta : Code
  | zeta : Nat → Code
  | golomb : Nat → Code
deriving Repr, DecidableEq

/-- The five per-field code choices recorded in the .properties file. -/
structure CompFlags where
  outdegrees : Code
  references : Code
  blocks : Code
  intervals : Code
  residuals : Code
deriving Repr, DecidableEq

/-- const_codes constants (code_readers.rs lines 7-16). -/
def constUNARY : Nat := 0

def constGAMMA : Nat := 1

def constDELTA : Nat := 2

def constZETA : Nat := 3

/-- code_to_const (code_readers.rs lines 19-27).  Note the ζ parameter k is
  dropped. -/
def code_to_const (c : Code) : Except String Nat :=
  match c with
  | .unary => .ok constUNARY
  | .gamma => .ok constGAMMA
  | .delta => .ok constDELTA
  | .zeta _ => .ok constZETA
  | .golomb _ => .error "Only unary, gamma, delta, and zeta codes are allowed"

/-- One `if code_to_const(..)? != PARAM { bail }` step of
  ConstCodesReader::new. -/
def checkField (c : Code) (param : Nat) (e : String) : Except String Unit :=
  match code_to_const c with
  | .error msg => .error msg
  | .ok v => if v ≠ param then .error e else .ok ()

/-- ConstCodesReader::new (code_readers.rs lines 84-105). -/
def constCodesReaderNew (f : CompFlags)
    (OUTDEGREES REFERENCES BLOCKS INTERVALS RESIDUALS : Nat) :
    Except String Unit := do
  checkField f.outdegrees OUTDEGREES "Code for outdegrees does not match"
  checkField f.references REFERENCES "Cod for references does not match"
  checkField f.blocks BLOCKS "Code for blocks does not match"
  checkField f.intervals INTERVALS "Code for intervals does not match"
  checkField f.residuals RESIDUALS "Code for residuals does not match"

/-- The endianness check of parse_properties (load.rs lines 52-63): a missing
  endianness key defaults to big. -/
def checkEndianness (declared : Option String) (expected : String) :
    Except String Unit :=
  if declared.getD "big" = expected then .ok ()
  else .error "Wrong endianness"

/-- The code/endianness validation performed when loading a BVGraph through
  the const-codes path: parse_properties followed by ConstCodesReader::new. -/
def loadCheck (declared : Option String) (expected : String) (f : CompFlags)
    (OUTDEGREES REFERENCES BLOCKS INTERVALS RESIDUALS : Nat) :
    Except String Unit := do
  checkEndianness declared expected
  constCodesReaderNew f OUTDEGREES REFERENCES BLOCKS INTERVALS RESIDUALS

/-- The code a const-codes reader with the given compile-time constants
  actually expects for a field (code_readers.rs select_code_read macro):
  parameter K selects the ζ flavour. -/
def expectedCode (param K : Nat) : Option Code :=
  if param = constUNARY then some .unary
  else if param = constGAMMA then some .gamma
  else if param = constDELTA then some .delta
  else if param = constZETA then some (.zeta K)
  else none

/-! ## src/utils/permuted_graph.rs and coo_to_graph.rs :
    SortedNodePermutedIterator

  Both files define a node iterator over a sorted pair stream with fields
  num_nodes, curr_node (a wrapping usize, initialised to 0usize-1),
  next_pair (the look-ahead pair, (usize::MAX, usize::MAX) once the stream
  is exhausted) and the remaining stream.  The versions differ in one line
  of next(): coo_to_graph.rs assigns
  curr_node = curr_node.wrapping_add(1) while permuted_graph.rs computes
  curr_node.wrapping_add(1) and discards the result. -/

structure PGNodeIter where
  numNodes : Nat
  currNode : Nat
  nextPair : Nat × Nat
  stream : List (Nat × Nat)
deriving Repr, DecidableEq

/-- The skip loop of next(): while next_pair.0 < curr_node, pull the next
  pair (or the (MAX, MAX) sentinel once the stream ends; since
  curr_node < 2^64 the sentinel always stops the loop). -/
def advancePast (curr : Nat) (np : Nat × Nat) (st : List (Nat × Nat)) :
    (Nat × Nat) × List (Nat × Nat) :=
  if np.1 < curr then
    match st with
    | [] => ((usizeMAX, usizeMAX), [])
    | p :: rest => advancePast curr p rest
  else (np, st)

/-- next() of permuted_graph.rs lines 162-177: the increment on line 163 is
  computed and discarded. -/
def pgNext (s : PGNodeIter) : Option (Nat × PGNodeIter) :=
  let _discarded := (s.currNode + 1) % U64
  if s.currNode = s.numNodes then none
  else
    let (np, st) := advancePast s.currNode s.nextPair s.stream
    some (s.currNode, { s with nextPair := np, stream := st })

/-- next() of coo_to_graph.rs lines 57-77: the increment is assigned back. -/
def cooNextNode (s : PGNodeIter) : Option (Nat × PGNodeIter) :=
  let c := (s.currNode + 1) % U64
  if c = s.numNodes then none
  else
    let (np, st) := advancePast c s.nextPair s.stream
    some (c, { s with currNode := c, nextPair := np, stream := st })

/-- iter_nodes(): fresh iterator state (curr_node = 0usize.wrapping_sub(1),
  look-ahead primed from the stream). -/
def pgFresh (numNodes : Nat) (pairs : List (Nat × Nat)) : PGNodeIter :=
  { numNodes := numNodes,
    currNode := usizeMAX,
    nextPair := pairs.headD (usizeMAX, usizeMAX),
    stream := pairs.tail }

/-! ## src/algorithms/llp.rs : final sort of the permutation

  llp.rs line 187:
    perm.par_sort_unstable_by(|&a, &b| label_store.label(a).cmp(&label_store.label(b)))
  The comparator looks only at the labels; the sort is unstable.  Its
  contract (rayon par_sort_unstable_by) is: the output is a permutation of
  the input that is sorted with respect to the comparator.  Nothing more is
  guaranteed about the relative order of elements the comparator ties. -/

def labelOf (labels : List Nat) (a : Nat) : Nat := labels.getD a 0

/-- Contract of perm.par_sort_unstable_by with the label-only comparator. -/
def sortByLabelContract (labels : List Nat) (input output : List Nat) : Prop :=
  output.Perm input ∧
    output.Sorted (fun a b => labelOf labels a ≤ labelOf labels b)

/-- The ordering asserted by the claim: sorted by label with equal-label
  ties in increasing node-id order. -/
def labelIdSorted (labels : List Nat) (out : List Nat) : Prop :=
  out.Sorted (fun a b =>
    labelOf labels a < labelOf labels b ∨
      (labelOf labels a = labelOf labels b ∧ a ≤ b))

/-! ## src/utils/sort_pairs.rs : SortPairs

  The payload type `P` is abstract (its user-supplied bitstream codec is
  assumed lossless per the spec, so a batch file is modelled as the list of
  gap-encoded entries written to it, in order).  `par_sort_unstable_by_key`
  sorts a batch by the `(src, dst)` key with unspecified order among equal
  keys; it is modelled by insertion sort on that key.  The `KAryHeap` behind
  `KMergeIters` is repository code outside src/, modelled from the spec as a
  k-ary min-heap on the `(src, dst)` key whose pop order among equal keys is
  unspecified: popping extracts an entry with minimal key. -/

/-- The (src, dst) sort key of a triple. -/
def key {P : Type} (t : Nat × Nat × P) : Nat × Nat := (t.1, t.2.1)

/-- Lexicographic order on (src, dst) keys. -/
def pairLe (x y : Nat × Nat) : Prop := x.1 < y.1 ∨ (x.1 = y.1 ∧ x.2 ≤ y.2)

def pairLt (x y : Nat × Nat) : Prop := x.1 < y.1 ∨ (x.1 = y.1 ∧ x.2 < y.2)

instance (x y : Nat × Nat) : Decidable (pairLe x y) := by
  unfold pairLe; infer_instance

instance (x y : Nat × Nat) : Decidable (pairLt x y) := by
  unfold pairLt; infer_instance

/-- Order on triples used to sort a batch (payload ignored). -/
def keyRel {P : Type} (a b : Nat × Nat × P) : Prop := pairLe (key a) (key b)

instance {P : Type} : DecidableRel (keyRel (P := P)) := fun _ _ => by
  unfold keyRel; infer_instance

instance {P : Type} : IsTotal (Nat × Nat × P) keyRel where
  total a b := by unfold keyRel pairLe; omega

instance {P : Type} : IsTrans (Nat × Nat × P) keyRel where
  trans a b c := by unfold keyRel pairLe; omega

/-- State of a SortPairs instance: the pending batch and, for each batch
  file created so far, its content (the gap-encoded entries, in order). -/
structure SPState (P : Type) where
  batchSize : Nat
  lastBatchLen : Nat
  batch : List (Nat × Nat × P)
  files : List (List (Nat × Nat × P))

/-- SortPairs::new over an empty directory. -/
def spNew (P : Type) (batchSize : Nat) : SPState P :=
  { batchSize := batchSize, lastBatchLen := 0, batch := [], files := [] }

/-- Model of batch.par_sort_unstable_by_key(|(x, y, _)| (x, y)). -/
def sortBatch {P : Type} (l : List (Nat × Nat × P)) : List (Nat × Nat × P) :=
  l.insertionSort keyRel

/-- The gap encoding loop of SortPairs::dump (sort_pairs.rs lines 94-107). -/
def encodeBatchGo {P : Type} (prevSrc prevDst : Nat) :
    List (Nat × Nat × P) → List (Nat × Nat × P)
  | [] => []
  | (src, dst, payload) :: rest =>
      let pd := if src ≠ prevSrc then 0 else prevDst
      (src - prevSrc, dst - pd, payload) :: encodeBatchGo src dst rest

def encodeBatch {P : Type} (l : List (Nat × Nat × P)) : List (Nat × Nat × P) :=
  encodeBatchGo 0 0 l

/-- SortPairs::dump (sort_pairs.rs lines 81-114). -/
def spDump {P : Type} (s : SPState P) : SPState P :=
  if s.batch.isEmpty then s
  else
    { s with
      files := s.files ++ [encodeBatch (sortBatch s.batch)],
      lastBatchLen := s.batch.length,
      batch := [] }

/-- SortPairs::push (sort_pairs.rs lines 72-78). -/
def spPush {P : Type} (s : SPState P) (t : Nat × Nat × P) : SPState P :=
  let s1 := { s with batch := s.batch ++ [t] }
  if s1.batch.length ≥ s1.batchSize then spDump s1 else s1

def spPushAll {P : Type} (s : SPState P) (ts : List (Nat × Nat × P)) : SPState P :=
  ts.foldl spPush s

/-- Drop for SortPairs (sort_pairs.rs lines 43-47): it dumps the pending
  batch; no file is removed. -/
def spDrop {P : Type} (s : SPState P) : SPState P := spDump s

/-- SortPairs::cancel_batches (sort_pairs.rs lines 117-127): removes every
  created batch file and resets the state. -/
def spCancelBatches {P : Type} (s : SPState P) : SPState P :=
  { s with files := [], lastBatchLen := 0, batch := [] }

/-- BatchIterator::next iterated (sort_pairs.rs lines 202-218): read `len`
  entries, reconstructing the absolute pairs from the gaps.  Reading past
  the end of a batch file would panic in Rust; that case (reachable only
  with batch_size = 0) yields the entries read so far. -/
def decodeBatchGo {P : Type} (prevSrc prevDst : Nat) :
    Nat → List (Nat × Nat × P) → List (Nat × Nat × P)
  | 0, _ => []
  | _ + 1, [] => []
  | k + 1, (sg, dg, payload) :: rest =>
      let src := prevSrc + sg
      let pd := if src ≠ prevSrc then 0 else prevDst
      let dst := pd + dg
      (src, dst, payload) :: decodeBatchGo src dst k rest

def decodeBatch {P : Type} (len : Nat) (file : List (Nat × Nat × P)) :
    List (Nat × Nat × P) :=
  decodeBatchGo 0 0 len file

/-- SortPairs::iter (sort_pairs.rs lines 129-142): final dump, then one
  BatchIterator per file, replayed with length batch_size for every file
  but the last and last_batch_len for the last. -/
def spIterLists {P : Type} (s : SPState P) : List (List (Nat × Nat × P)) :=
  (List.range (spDump s).files.length).map fun i =>
    decodeBatch
      (if i + 1 = (spDump s).files.length then (spDump s).lastBatchLen
        else (spDump s).batchSize)
      ((spDump s).files.getD i [])

/-- KMergeIters::new (sort_pairs.rs lines 249-265): prime one HeadTail per
  non-empty iterator. -/
def kmergeNew {P : Type} (ls : List (List (Nat × Nat × P))) :
    List ((Nat × Nat × P) × List (Nat × Nat × P)) :=
  ls.filterMap fun l =>
    match l with
    | [] => none
    | h :: t => some (h, t)

/-- Extract an entry whose (src, dst) key is minimal (the heap pop of
  KMergeIters::next; ties resolved arbitrarily, here to the earliest). -/
def extractMin {P : Type} (best : (Nat × Nat × P) × List (Nat × Nat × P)) :
    List ((Nat × Nat × P) × List (Nat × Nat × P)) →
      ((Nat × Nat × P) × List (Nat × Nat × P)) ×
        List ((Nat × Nat × P) × List (Nat × Nat × P))
  | [] => (best, [])
  | c :: cs =>
      if pairLt (key c.1) (key best.1) then
        ((extractMin c cs).1, best :: (extractMin c cs).2)
      else
        ((extractMin best cs).1, c :: (extractMin best cs).2)

/-- Total number of triples still inside a heap. -/
def heapSize {P : Type}
    (hs : List ((Nat × Nat × P) × List (Nat × Nat × P))) : Nat :=
  (hs.map fun c => c.2.length + 1).sum

/-- KMergeIters::next iterated (sort_pairs.rs lines 272-294): pop the
  minimal head, advance its tail (dropping the entry when exhausted).  The
  fuel argument is instantiated with the exact heap size. -/
def kmergeRunF {P : Type} (fuel : Nat)
    (hs : List ((Nat × Nat × P) × List (Nat × Nat × P))) :
    List (Nat × Nat × P) :=
  match fuel, hs with
  | 0, _ => []
  | _, [] => []
  | f + 1, c :: cs =>
      match (extractMin c cs).1.2 with
      | [] => (extractMin c cs).1.1 :: kmergeRunF f (extractMin c cs).2
      | x :: ts =>
          (extractMin c cs).1.1 :: kmergeRunF f ((x, ts) :: (extractMin c cs).2)

/-- The full sorted stream produced by SortPairs::iter. -/
def spIter {P : Type} (s : SPState P) : List (Nat × Nat × P) :=
  let hs := kmergeNew (spIterLists s)
  kmergeRunF (heapSize hs) hs

/-- Invariant tying a SortPairs state to the triples pushed so far: the
  files hold the gap-encoded sorted dumps of consecutive full batches, every
  dumped batch has exactly batch_size triples, and the pending batch is
  strictly shorter than batch_size. -/
def SPInv {P : Type} (B : Nat) (pushed : List (Nat × Nat × P))
    (s : SPState P) : Prop :=
  1 ≤ B ∧ s.batchSize = B ∧ s.batch.length < B ∧
  ∃ bs : List (List (Nat × Nat × P)),
    s.files = bs.map (fun b => encodeBatch (sortBatch b)) ∧
    (∀ b ∈ bs, b.length = B) ∧
    (bs ≠ [] → s.lastBatchLen = B) ∧
    bs.flatten ++ s.batch = pushed

/-- Push a whole sequence of triples into a fresh SortPairs with the given
  batch size and drain the merged iterator. -/
def spRun (P : Type) (B : Nat) (pushes : List (Nat × Nat × P)) :
    List (Nat × Nat × P) :=
  spIter (spPushAll (spNew P B) pushes)

/-! ## src/algorithms/transpose.rs : transpose

  transpose pushes (dst, src, ()) for every arc of the input graph in
  iteration order into a SortPairs, merges, and presents the sorted pair
  stream through COOIterToGraph.  `cooRows` is the drain semantics of the
  (corrected) COOIterToGraph node iterator of coo_to_graph.rs when every
  successor iterator is consumed: for each node id c in turn the skip loop
  drops pairs with src < c and the successor iterator yields the dst of
  every pair with src = c. -/

def cooRows : Nat → Nat → List (Nat × Nat) → List (List Nat)
  | 0, _, _ => []
  | k + 1, c, ps =>
      ((ps.dropWhile (fun p => decide (p.1 < c))).takeWhile
          (fun p => decide (p.1 = c))).map (fun p => p.2)
        :: cooRows k (c + 1)
          ((ps.dropWhile (fun p => decide (p.1 < c))).dropWhile
            (fun p => decide (p.1 = c)))

/-- The arcs pushed by transpose (transpose.rs lines 28-33): for src in
  order, for dst in its successors, push (dst, src, ()). -/
def transposeArcs (G : List (List Nat)) : List (Nat × Nat × Unit) :=
  (List.range G.length).flatMap fun u => (G.getD u []).map fun v => (v, u, ())

/-- transpose (transpose.rs lines 9-40): sort the reversed arcs with a
  SortPairs of the given batch size and group them into one row per node. -/
def transposeM (G : List (List Nat)) (B : Nat) : List (List Nat) :=
  cooRows G.length 0 ((spRun Unit B (transposeArcs G)).map key)

/-! ## src/graph/bvgraph/bvgraph_writer_par.rs : parallel chunked compression

  The driver (parallel_compress_sequential_iter) splits the node list into
  consecutive chunks of `num_nodes / num_chunks` nodes (itertools `chunks`,
  so trailing nodes form extra chunks), compresses every chunk with a fresh
  `BVComp` whose starting node id is `nodes_per_chunk * chunk_id`, and
  concatenates the chunk bitstreams in order at bit granularity.

  `BVComp` and the BVGraph decoder are repository code outside src/.
  Modelled from the spec (sections 3 and 4.2) at the granularity of one
  token per encoded integer: an adjacency record is `outdegree`, then (when
  the compression window W is positive) `reference_offset r`, then for r > 0
  the copy-block count and run lengths, then `interval_count` with the
  interval (start, length) pairs — the first start as a signed gap from the
  node id v, later starts as gaps from the previous interval end, lengths
  less min_interval_length L — and finally the residuals: a first signed
  gap from v followed by positive deltas.  The reference selection of the
  encoder (the mock-writer minimisation) is abstracted as an arbitrary
  choice function `choose` returning an offset bounded by the window
  contents.  The decoder merges copies, intervals and residuals back into
  ascending order. -/

/-- The signed-gap code at spec level: a bijection Int to Nat. -/
def intCode (x : Int) : Nat :=
  if 0 ≤ x then 2 * x.toNat else 2 * (-x).toNat - 1

def natCode (n : Nat) : Int :=
  if n % 2 = 0 then (n / 2 : Int) else -((n / 2 : Int) + 1)

/-- Maximal runs of consecutive integers. -/
def splitRuns : List Nat → List (List Nat)
  | [] => []
  | x :: t =>
      match splitRuns t with
      | [] => [[x]]
      | [] :: rs => [x] :: [] :: rs
      | (y :: r) :: rs =>
          if y = x + 1 then (x :: y :: r) :: rs else [x] :: (y :: r) :: rs

/-- Leading elements equal to b. -/
def countLeading (b : Bool) : List Bool → Nat
  | [] => 0
  | x :: t => if x = b then countLeading b t + 1 else 0

/-- Copy/skip run lengths of a copy mask, alternating starting with copy,
  the trailing (implicit) run dropped; the fuel is instantiated with the
  mask length, enough since every emitted (copy, skip) pair consumes at
  least one mask entry. -/
def encBlocksGo : Nat → List Bool → List Nat
  | _, [] => []
  | 0, _ => []
  | f + 1, m0 :: mrest =>
      match (m0 :: mrest).drop (countLeading true (m0 :: mrest)) with
      | [] => []
      | z :: l1t =>
          match (z :: l1t).drop (countLeading false (z :: l1t)) with
          | [] => [countLeading true (m0 :: mrest)]
          | w :: l2t =>
              countLeading true (m0 :: mrest) ::
                countLeading false (z :: l1t) ::
                encBlocksGo f (w :: l2t)

def encBlocks (mask : List Bool) : List Nat := encBlocksGo mask.length mask

/-- Decoder side of the copy blocks: apply alternating copy/skip runs to
  the reference list, the run after the last listed one extending to the
  end (copied iff the block count is even). -/
def applyBlocks (ref : List Nat) (blocks : List Nat) (copying : Bool) :
    List Nat :=
  match blocks with
  | [] => if copying then ref else []
  | n :: rest =>
      (if copying then ref.take n else []) ++
        applyBlocks (ref.drop n) rest (!copying)

/-- Elements of ref selected by a boolean mask. -/
def maskFilter : List Nat → List Bool → List Nat
  | _, [] => []
  | [], _ => []
  | x :: xs, b :: bs =>
      if b then x :: maskFilter xs bs else maskFilter xs bs

/-- Interval encoding: (start, length - L) pairs, the first start as a
  signed gap from v, later starts as gaps from the previous interval end. -/
def encInts (L v : Nat) : Option Nat → List (List Nat) → List Nat
  | _, [] => []
  | none, run :: rest =>
      intCode ((run.headD 0 : Int) - (v : Int)) :: (run.length - L) ::
        encInts L v (some (run.headD 0 + run.length)) rest
  | some pe, run :: rest =>
      (run.headD 0 - pe) :: (run.length - L) ::
        encInts L v (some (run.headD 0 + run.length)) rest

/-- Interval decoding, returning the intervals as element lists. -/
def decInts (L v : Nat) : Option Nat → Nat → List Nat →
    Option (List (List Nat) × List Nat)
  | _, 0, toks => some ([], toks)
  | prev, k + 1, toks =>
      match toks with
      | g :: lenTok :: rest =>
          let s : Nat :=
            match prev with
            | none => ((v : Int) + natCode g).toNat
            | some pe => pe + g
          match decInts L v (some (s + (lenTok + L))) k rest with
          | none => none
          | some (runs, rr) => some (List.range' s (lenTok + L) :: runs, rr)
      | _ => none

/-- Residual encoding: first a signed gap from v, then positive deltas. -/
def encResGaps : Nat → List Nat → List Nat
  | _, [] => []
  | prev, y :: rest => (y - prev) :: encResGaps y rest

def encResiduals (v : Nat) : List Nat → List Nat
  | [] => []
  | x :: rest => intCode ((x : Int) - (v : Int)) :: encResGaps x rest

def decResGaps : Nat → Nat → List Nat → Option (List Nat × List Nat)
  | _, 0, toks => some ([], toks)
  | prev, k + 1, toks =>
      match toks with
      | g :: rest =>
          match decResGaps (prev + g) k rest with
          | none => none
          | some (xs, rr) => some ((prev + g) :: xs, rr)
      | _ => none

def decResiduals (v : Nat) : Nat → List Nat → Option (List Nat × List Nat)
  | 0, toks => some ([], toks)
  | k + 1, toks =>
      match toks with
      | g :: rest =>
          let x := ((v : Int) + natCode g).toNat
          match decResGaps x k rest with
          | none => none
          | some (xs, rr) => some (x :: xs, rr)
      | _ => none

/-- The interval runs follow each other: each run starts no earlier than
  the end of the previous one (and than the given bound, when present). -/
def runsChained : Option Nat → List (List Nat) → Prop
  | _, [] => True
  | none, r :: rest => runsChained (some (r.headD 0 + r.length)) rest
  | some pe, r :: rest =>
      pe ≤ r.headD 0 ∧ runsChained (some (r.headD 0 + r.length)) rest

/-- Two-way sorted merge on Nat (fuel variant of List.merge so that it
  evaluates in the kernel; the fuel is the total length). -/
def mergeFuel : Nat → List Nat → List Nat → List Nat
  | 0, xs, ys => xs ++ ys
  | _ + 1, [], ys => ys
  | _ + 1, xs, [] => xs
  | f + 1, x :: xs, y :: ys =>
      if x ≤ y then x :: mergeFuel f xs (y :: ys)
      else y :: mergeFuel f (x :: xs) ys

def mergeSorted (xs ys : List Nat) : List Nat :=
  mergeFuel (xs.length + ys.length) xs ys

/-- One adjacency record, as the list of integers written to the stream. -/
def encodeNode (W L : Nat)
    (choose : List (List Nat) → List Nat → Nat)
    (v : Nat) (window : List (List Nat)) (succ : List Nat) : List Nat :=
  if succ.length = 0 then [0]
  else
    let r := if W = 0 then 0 else choose window succ
    let refList := if r = 0 then [] else window.getD (r - 1) []
    let refTok := if W = 0 then [] else [r]
    let blockTok :=
      if r = 0 then []
      else
        let blocks := encBlocks (refList.map fun x => decide (x ∈ succ))
        blocks.length :: blocks
    let extras := succ.filter fun x => decide (x ∉ refList)
    let runs := splitRuns extras
    let longs := runs.filter fun run => decide (L ≤ run.length)
    let shorts := runs.filter fun run => !(decide (L ≤ run.length))
    [succ.length] ++ refTok ++ blockTok ++
      (longs.length :: encInts L v none longs) ++
      encResiduals v shorts.flatten

/-- Decoding one adjacency record. -/
def decodeNode (W L : Nat) (v : Nat) (window : List (List Nat)) :
    List Nat → Option (List Nat × List Nat)
  | [] => none
  | d :: rest =>
      if d = 0 then some ([], rest)
      else
        let step1 : Option (Nat × List Nat) :=
          if W = 0 then some (0, rest)
          else match rest with
            | [] => none
            | r :: rr => some (r, rr)
        match step1 with
        | none => none
        | some (r, rest1) =>
            let step2 : Option (List Nat × List Nat) :=
              if r = 0 then some ([], rest1)
              else match rest1 with
                | [] => none
                | b :: rr =>
                    if b ≤ rr.length then
                      some (applyBlocks (window.getD (r - 1) [])
                        (rr.take b) true, rr.drop b)
                    else none
            match step2 with
            | none => none
            | some (copied, rest2) =>
                match rest2 with
                | [] => none
                | k :: rest3 =>
                    match decInts L v none k rest3 with
                    | none => none
                    | some (runs, rest4) =>
                        let resCount :=
                          d - copied.length - (runs.map List.length).sum
                        match decResiduals v resCount rest4 with
                        | none => none
                        | some (resid, rest5) =>
                            some (mergeSorted copied
                              (mergeSorted runs.flatten resid), rest5)

/-- BVComp over a list of nodes: encode each node against the circular
  window of the W previously encoded lists, starting from the given
  window. -/
def encodeNodes (W L : Nat) (choose : List (List Nat) → List Nat → Nat) :
    Nat → List (List Nat) → List (List Nat) → List Nat
  | _, _, [] => []
  | v, w, succ :: rest =>
      encodeNode W L choose v w succ ++
        encodeNodes W L choose (v + 1) ((succ :: w).take W) rest

/-- Sequential decoding of n adjacency records, maintaining the window. -/
def decodeNodes (W L : Nat) :
    Nat → List (List Nat) → Nat → List Nat →
      Option (List (List Nat) × List Nat)
  | _, _, 0, toks => some ([], toks)
  | v, w, n + 1, toks =>
      match decodeNode W L v w toks with
      | none => none
      | some (s, rest) =>
          match decodeNodes W L (v + 1) ((s :: w).take W) n rest with
          | none => none
          | some (ss, rest2) => some (s :: ss, rest2)

/-- Consecutive chunks of npc nodes (itertools chunks); fuel variant, the
  list length is enough fuel whenever npc is at least 1. -/
def chunksOfGo {α : Type} : Nat → Nat → List α → List (List α)
  | 0, _, _ => []
  | _ + 1, _, [] => []
  | f + 1, npc, l => l.take npc :: chunksOfGo f npc (l.drop npc)

def chunksOf {α : Type} (npc : Nat) (l : List α) : List (List α) :=
  chunksOfGo l.length npc l

/-- The chunk loop of parallel_compress_sequential_iter: chunk i is
  compressed by a fresh BVComp starting at node id npc * i, and the chunk
  streams are concatenated in order. -/
def encodeChunks (W L : Nat) (choose : List (List Nat) → List Nat → Nat)
    (npc : Nat) : Nat → List (List (List Nat)) → List Nat
  | _, [] => []
  | i, ch :: rest =>
      encodeNodes W L choose (npc * i) [] ch ++
        encodeChunks W L choose npc (i + 1) rest

/-- parallel_compress_sequential_iter (bvgraph_writer_par.rs lines
  133-153): nodes_per_chunk = num_nodes / num_chunks. -/
def parCompress (W L : Nat) (choose : List (List Nat) → List Nat → Nat)
    (G : List (List Nat)) (C : Nat) : List Nat :=
  encodeChunks W L choose (G.length / C) 0 (chunksOf (G.length / C) G)

/-- The sequential compressor: one BVComp over all nodes from id 0. -/
def seqCompress (W L : Nat) (choose : List (List Nat) → List Nat → Nat)
    (G : List (List Nat)) : List Nat :=
  encodeNodes W L choose 0 [] G

/-- Decode a whole .graph stream of N records. -/
def decodeGraph (W L N : Nat) (toks : List Nat) : Option (List (List Nat)) :=
  match decodeNodes W L 0 [] N toks with
  | none => none
  | some (ss, _) => some ss

/-- The decoder window after sequentially pushing the given lists. -/
def windowAfter (W : Nat) (ss : List (List Nat))
    (w : List (List Nat)) : List (List Nat) :=
  ss.foldl (fun w s => (s :: w).take W) w

/-! ## Theorems -/

/-- XOR with an all-ones mask of width n is complement within n bits. -/
theorem xor_ones {n x : Nat} (h : x < 2 ^ n) :
    x ^^^ (2 ^ n - 1) = 2 ^ n - 1 - x := by
  apply Nat.eq_of_testBit_eq
  intro i
  by_cases hi : i < n
  · have hx : 2 ^ n - 1 - x = 2 ^ n - (x + 1) := by omega
    rw [Nat.testBit_xor, Nat.testBit_two_pow_sub_one, hx,
      Nat.testBit_two_pow_sub_succ h]
    simp [hi]
  · have hle : 2 ^ n ≤ 2 ^ i := Nat.pow_le_pow_right (by norm_num) (Nat.le_of_not_lt hi)
    have hxi : Nat.testBit x i = false := Nat.testBit_lt_two_pow (lt_of_lt_of_le h hle)
    have hyi : Nat.testBit (2 ^ n - 1 - x) i = false :=
      Nat.testBit_lt_two_pow (lt_of_lt_of_le (by omega) hle)
    rw [Nat.testBit_xor, Nat.testBit_two_pow_sub_one, hxi, hyi]
    simp [hi]

theorem nat2int_int2nat {p : Nat} (h : p < U64) : nat2int (int2nat p) = p := by
  unfold int2nat nat2int U64 I63 at *
  by_cases hp : p < 2 ^ 63
  · have h2 : p * 2 % 2 ^ 64 = p * 2 := Nat.mod_eq_of_lt (by omega)
    have h3 : p * 2 % 2 = 0 := by omega
    simp only [hp, if_true, Nat.xor_zero, h2, h3]
    norm_num
  · have h2 : p * 2 % 2 ^ 64 = p * 2 - 2 ^ 64 := by omega
    have hlt : p * 2 - 2 ^ 64 < 2 ^ 64 := by omega
    simp only [hp, if_false]
    rw [h2, xor_ones hlt]
    have hodd : (2 ^ 64 - 1 - (p * 2 - 2 ^ 64)) % 2 = 1 := by omega
    have hdiv : (2 ^ 64 - 1 - (p * 2 - 2 ^ 64)) / 2 = 2 ^ 64 - 1 - p := by omega
    simp only [hodd, if_true, hdiv]
    rw [xor_ones (by omega)]
    omega

theorem int2nat_nat2int {y : Nat} (h : y < U64) : int2nat (nat2int y) = y := by
  unfold int2nat nat2int U64 I63 at *
  by_cases hy : y % 2 = 1
  · simp only [hy, if_true]
    rw [xor_ones (by omega)]
    have hge : ¬ (2 ^ 64 - 1 - y / 2 < 2 ^ 63) := by omega
    simp only [hge, if_false]
    have h2 : (2 ^ 64 - 1 - y / 2) * 2 % 2 ^ 64 = 2 ^ 64 - 1 - y := by omega
    rw [h2, xor_ones (by omega)]
    omega
  · simp only [hy, if_false, Nat.xor_zero]
    have hlt : y / 2 < 2 ^ 63 := by omega
    have h2 : y / 2 * 2 % 2 ^ 64 = y := by omega
    simp only [hlt, if_true, Nat.xor_zero, h2]

/-- Claim C6: int2nat and nat2int are mutually inverse bijections on all
    64-bit values; in particular nat2int maps 0,1,2,3,4 to 0,-1,1,-2,2. -/
theorem claim_C6 :
    (∀ p, p < U64 → nat2int (int2nat p) = p) ∧
    (∀ y, y < U64 → int2nat (nat2int y) = y) ∧
    patToInt (nat2int 0) = 0 ∧ patToInt (nat2int 1) = -1 ∧
    patToInt (nat2int 2) = 1 ∧ patToInt (nat2int 3) = -2 ∧
    patToInt (nat2int 4) = 2 :=
  ⟨fun _ h => nat2int_int2nat h, fun _ h => int2nat_nat2int h,
    by decide, by decide, by decide, by decide, by decide⟩

/-- Witness for claim C6 at concrete inputs. -/
theorem claim_C6_witness : nat2int (int2nat 3) = 3 ∧ int2nat (nat2int 7) = 7 :=
  ⟨claim_C6.1 3 (by norm_num [U64]), claim_C6.2.1 7 (by norm_num [U64])⟩

/-- Claim C10: for both bit orders, read_bits(0) returns Ok(0) and leaves the
    reader state (backend position, buffer and valid-bit count) unchanged. -/
theorem claim_C10 (s : BBSRState) :
    m2lReadBits s 0 = .ok (0, s) ∧ l2mReadBits s 0 = .ok (0, s) :=
  ⟨rfl, rfl⟩

/-- Sequencing two Except Unit actions succeeds iff both succeed. -/
theorem except_seq_ok (x : Except String Unit) (y : Except String Unit) :
    (x >>= fun _ => y) = .ok () ↔ (x = .ok () ∧ y = .ok ()) := by
  cases x with
  | error e => simp [Bind.bind, Except.bind]
  | ok u => cases u; simp [Bind.bind, Except.bind]

/-- A single field check succeeds iff the recorded code maps to the
    compile-time constant. -/
theorem checkField_ok (c : Code) (param : Nat) (e : String) :
    checkField c param e = .ok () ↔ code_to_const c = .ok param := by
  cases c with
  | unary => by_cases h : constUNARY = param <;> simp [checkField, code_to_const, h]
  | gamma => by_cases h : constGAMMA = param <;> simp [checkField, code_to_const, h]
  | delta => by_cases h : constDELTA = param <;> simp [checkField, code_to_const, h]
  | zeta k => by_cases h : constZETA = param <;> simp [checkField, code_to_const, h]
  | golomb b => simp [checkField, code_to_const]

/-- Claim C5 helper: the const-codes load check succeeds iff the endianness
    (defaulting to big when absent) matches and every field code kind maps to
    the reader's compile-time constant. -/
theorem loadCheck_ok (declared : Option String) (expected : String)
    (f : CompFlags) (O R B I RES : Nat) :
    loadCheck declared expected f O R B I RES = .ok () ↔
      (declared.getD "big" = expected ∧
        code_to_const f.outdegrees = .ok O ∧
        code_to_const f.references = .ok R ∧
        code_to_const f.blocks = .ok B ∧
        code_to_const f.intervals = .ok I ∧
        code_to_const f.residuals = .ok RES) := by
  show ((checkEndianness declared expected) >>= fun _ =>
      constCodesReaderNew f O R B I RES) = .ok () ↔ _
  rw [except_seq_ok]
  unfold constCodesReaderNew
  show _ ∧ ((checkField f.outdegrees O _) >>= fun _ => _) = .ok () ↔ _
  rw [except_seq_ok, except_seq_ok, except_seq_ok, except_seq_ok,
    checkField_ok, checkField_ok, checkField_ok, checkField_ok, checkField_ok]
  unfold checkEndianness
  constructor
  · rintro ⟨h1, h2⟩
    refine ⟨?_, h2.1, h2.2.1, h2.2.2.1, h2.2.2.2.1, h2.2.2.2.2⟩
    by_cases hd : declared.getD "big" = expected
    · exact hd
    · simp [hd] at h1
  · rintro ⟨h1, h2⟩
    exact ⟨by simp [h1], h2.1, h2.2.1, h2.2.2.1, h2.2.2.2.1, h2.2.2.2.2⟩

/-- Claim C5 counterexample: with the default const-codes reader
    (outdegrees γ, references unary, blocks γ, intervals γ, residuals ζ with
    K = 3), a properties file recording residuals = ζ with k = 4 loads
    successfully, although the recorded code ζ_4 differs from the ζ_3 the
    reader expects. -/
theorem claim_C5_counterexample :
    loadCheck (some "big") "big" ⟨.gamma, .unary, .gamma, .gamma, .zeta 4⟩
      constGAMMA constUNARY constGAMMA constGAMMA constZETA = .ok () ∧
    expectedCode constZETA 3 = some (.zeta 3) ∧
    (Code.zeta 4 : Code) ≠ Code.zeta 3 := by
  refine ⟨rfl, rfl, by decide⟩

/-- Claim C5 (amended): loading through the const-codes path fails whenever
    the declared endianness (defaulting to big when the key is absent)
    differs from the expected one, or the KIND of any recorded per-field code
    (unary, γ, δ, ζ — the ζ parameter k is not validated) differs from the
    reader's compile-time constant or is unsupported; it succeeds exactly
    when the endianness and all five code kinds match. -/
theorem claim_C5 (declared : Option String) (expected : String)
    (f : CompFlags) (O R B I RES : Nat) :
    loadCheck declared expected f O R B I RES = .ok () ↔
      (declared.getD "big" = expected ∧
        code_to_const f.outdegrees = .ok O ∧
        code_to_const f.references = .ok R ∧
        code_to_const f.blocks = .ok B ∧
        code_to_const f.intervals = .ok I ∧
        code_to_const f.residuals = .ok RES) :=
  loadCheck_ok declared expected f O R B I RES

/-- extractMin returns a rearrangement of the heap. -/
theorem extractMin_perm {P : Type}
    (best : (Nat × Nat × P) × List (Nat × Nat × P))
    (cs : List ((Nat × Nat × P) × List (Nat × Nat × P))) :
    List.Perm ((extractMin best cs).1 :: (extractMin best cs).2) (best :: cs) := by
  induction cs generalizing best with
  | nil => simp [extractMin]
  | cons c cs ih =>
    by_cases h : pairLt (key c.1) (key best.1)
    · simp only [extractMin, if_pos h]
      exact (List.Perm.swap best (extractMin c cs).1 _).trans ((ih c).cons best)
    · simp only [extractMin, if_neg h]
      exact ((List.Perm.swap c (extractMin best cs).1 _).trans
        ((ih best).cons c)).trans (List.Perm.swap best c cs)

/-- extractMin returns an entry whose key is minimal. -/
theorem extractMin_min {P : Type}
    (best : (Nat × Nat × P) × List (Nat × Nat × P))
    (cs : List ((Nat × Nat × P) × List (Nat × Nat × P))) :
    ∀ e ∈ best :: cs, pairLe (key (extractMin best cs).1.1) (key e.1) := by
  induction cs generalizing best with
  | nil =>
    intro e he
    simp at he
    subst he
    simp only [extractMin]
    unfold pairLe
    omega
  | cons c cs ih =>
    intro e he
    rcases List.mem_cons.mp he with heq | he2
    · rw [heq]
      by_cases h : pairLt (key c.1) (key best.1)
      · simp only [extractMin, if_pos h]
        have h1 := ih c c (List.mem_cons_self c cs)
        unfold pairLe at h1 ⊢
        unfold pairLt at h
        omega
      · simp only [extractMin, if_neg h]
        exact ih best best (List.mem_cons_self best cs)
    · rcases List.mem_cons.mp he2 with heq | he3
      · rw [heq]
        by_cases h : pairLt (key c.1) (key best.1)
        · simp only [extractMin, if_pos h]
          exact ih c c (List.mem_cons_self c cs)
        · simp only [extractMin, if_neg h]
          have h1 := ih best best (List.mem_cons_self best cs)
          unfold pairLe at h1 ⊢
          unfold pairLt at h
          omega
      · by_cases h : pairLt (key c.1) (key best.1)
        · simp only [extractMin, if_pos h]
          exact ih c e (List.mem_cons_of_mem c he3)
        · simp only [extractMin, if_neg h]
          exact ih best e (List.mem_cons_of_mem best he3)

theorem pairLe_trans {a b c : Nat × Nat} (h1 : pairLe a b) (h2 : pairLe b c) :
    pairLe a c := by
  unfold pairLe at *
  omega

theorem heapSize_perm {P : Type}
    {hs1 hs2 : List ((Nat × Nat × P) × List (Nat × Nat × P))}
    (h : List.Perm hs1 hs2) : heapSize hs1 = heapSize hs2 :=
  (h.map _).sum_eq

theorem kmergeRunF_perm {P : Type} :
    ∀ (fuel : Nat) (hs : List ((Nat × Nat × P) × List (Nat × Nat × P))),
      heapSize hs ≤ fuel →
      List.Perm (kmergeRunF fuel hs) ((hs.map fun c => c.1 :: c.2).flatten) := by
  intro fuel
  induction fuel with
  | zero =>
    intro hs h
    cases hs with
    | nil => simp [kmergeRunF]
    | cons c cs => simp [heapSize] at h
  | succ f ih =>
    intro hs hle
    cases hs with
    | nil => simp [kmergeRunF]
    | cons c cs =>
      have hperm := extractMin_perm c cs
      have hsize : heapSize ((extractMin c cs).1 :: (extractMin c cs).2)
          = heapSize (c :: cs) := heapSize_perm hperm
      have hflat : List.Perm
          (((extractMin c cs).1 :: (extractMin c cs).2).map
            (fun ch => ch.1 :: ch.2)).flatten
          ((c :: cs).map fun ch => ch.1 :: ch.2).flatten :=
        (hperm.map _).flatten
      cases hm : (extractMin c cs).1.2 with
      | nil =>
        have h2 : heapSize (extractMin c cs).2 ≤ f := by
          have hx : heapSize ((extractMin c cs).1 :: (extractMin c cs).2)
              = (extractMin c cs).1.2.length + 1 + heapSize (extractMin c cs).2 := by
            simp [heapSize]
          rw [hm] at hx
          simp at hx
          simp [heapSize] at hle hsize hx ⊢
          omega
        have ihr := ih (extractMin c cs).2 h2
        simp only [kmergeRunF, hm]
        refine List.Perm.trans ?_ hflat
        simp only [List.map_cons, List.flatten_cons, hm]
        exact ihr.cons _
      | cons x ts =>
        have h2 : heapSize (((x, ts)) :: (extractMin c cs).2) ≤ f := by
          have hx : heapSize ((extractMin c cs).1 :: (extractMin c cs).2)
              = (extractMin c cs).1.2.length + 1 + heapSize (extractMin c cs).2 := by
            simp [heapSize]
          rw [hm] at hx
          simp [heapSize] at hle hsize hx ⊢
          omega
        have ihr := ih ((x, ts) :: (extractMin c cs).2) h2
        simp only [kmergeRunF, hm]
        refine List.Perm.trans ?_ hflat
        simp only [List.map_cons, List.flatten_cons, hm]
        refine List.Perm.trans (ihr.cons _) ?_
        simp

theorem kmergeRunF_sorted {P : Type} :
    ∀ (fuel : Nat) (hs : List ((Nat × Nat × P) × List (Nat × Nat × P))),
      heapSize hs ≤ fuel →
      (∀ ch ∈ hs, List.Pairwise keyRel (ch.1 :: ch.2)) →
      List.Pairwise keyRel (kmergeRunF fuel hs) := by
  intro fuel
  induction fuel with
  | zero =>
    intro hs h _
    cases hs with
    | nil => simp [kmergeRunF]
    | cons c cs => simp [heapSize] at h
  | succ f ih =>
    intro hs hle hch
    cases hs with
    | nil => simp [kmergeRunF]
    | cons c cs =>
      have hperm := extractMin_perm c cs
      have hsize : heapSize ((extractMin c cs).1 :: (extractMin c cs).2)
          = heapSize (c :: cs) := heapSize_perm hperm
      have hmem : (extractMin c cs).1 ∈ c :: cs :=
        hperm.subset (List.mem_cons_self _ _)
      have hsub : ∀ ch ∈ (extractMin c cs).2, ch ∈ c :: cs := fun ch h =>
        hperm.subset (List.mem_cons_of_mem _ h)
      have hmchain : List.Pairwise keyRel
          ((extractMin c cs).1.1 :: (extractMin c cs).1.2) :=
        hch _ hmem
      have hx : heapSize ((extractMin c cs).1 :: (extractMin c cs).2)
          = (extractMin c cs).1.2.length + 1 + heapSize (extractMin c cs).2 := by
        simp [heapSize]
      -- the popped head is below every element left in the heap
      have hhead : ∀ y, (∃ ch ∈ (extractMin c cs).2, y ∈ ch.1 :: ch.2) →
          keyRel (extractMin c cs).1.1 y := by
        rintro y ⟨ch, hchmem, hy⟩
        have h1 : pairLe (key (extractMin c cs).1.1) (key ch.1) :=
          extractMin_min c cs ch (hsub ch hchmem)
        rcases List.mem_cons.mp hy with heq | hy2
        · rw [heq]; exact h1
        · have h2 : keyRel ch.1 y :=
            List.rel_of_pairwise_cons (hch ch (hsub ch hchmem)) hy2
          exact pairLe_trans h1 h2
      cases hm : (extractMin c cs).1.2 with
      | nil =>
        have h2 : heapSize (extractMin c cs).2 ≤ f := by
          rw [hm] at hx
          simp at hx
          simp [heapSize] at hle hsize hx ⊢
          omega
        simp only [kmergeRunF, hm]
        refine List.Pairwise.cons ?_ (ih _ h2 (fun ch h => hch ch (hsub ch h)))
        intro y hy
        have hy2 := (kmergeRunF_perm f _ h2).mem_iff.mp hy
        rw [List.mem_flatten] at hy2
        obtain ⟨l, hl, hyl⟩ := hy2
        rw [List.mem_map] at hl
        obtain ⟨ch, hchmem, rfl⟩ := hl
        exact hhead y ⟨ch, hchmem, hyl⟩
      | cons x ts =>
        have h2 : heapSize (((x, ts)) :: (extractMin c cs).2) ≤ f := by
          rw [hm] at hx
          simp [heapSize] at hle hsize hx ⊢
          omega
        simp only [kmergeRunF, hm]
        have hch2 : ∀ ch ∈ ((x, ts)) :: (extractMin c cs).2,
            List.Pairwise keyRel (ch.1 :: ch.2) := by
          intro ch hchm
          rcases List.mem_cons.mp hchm with heq | h3
          · rw [heq]
            have := hmchain.tail
            rwa [hm] at this
          · exact hch ch (hsub ch h3)
        refine List.Pairwise.cons ?_ (ih _ h2 hch2)
        intro y hy
        have hy2 := (kmergeRunF_perm f _ h2).mem_iff.mp hy
        rw [List.mem_flatten] at hy2
        obtain ⟨l, hl, hyl⟩ := hy2
        rw [List.mem_map] at hl
        obtain ⟨ch, hchmem, rfl⟩ := hl
        rcases List.mem_cons.mp hchmem with heq | h3
        · -- y belongs to the advanced tail of the popped entry
          have : y ∈ (extractMin c cs).1.1 :: (extractMin c cs).1.2 := by
            rw [hm]
            rw [heq] at hyl
            exact List.mem_cons_of_mem _ hyl
          rcases List.mem_cons.mp this with hyy | hyy
          · rw [hyy]
            unfold keyRel pairLe
            omega
          · exact List.rel_of_pairwise_cons hmchain hyy
        · exact hhead y ⟨ch, h3, hyl⟩

/-- The batch-iterator decoding inverts the gap encoding on any key-sorted
    batch (prefix sums of gamma-coded gaps). -/
theorem decodeBatchGo_encodeBatchGo {P : Type} :
    ∀ (l : List (Nat × Nat × P)) (ps pd : Nat),
      List.Chain pairLe (ps, pd) (l.map key) →
      decodeBatchGo ps pd l.length (encodeBatchGo ps pd l) = l := by
  intro l
  induction l with
  | nil => intro ps pd _; rfl
  | cons t rest ih =>
    obtain ⟨s, d, p⟩ := t
    intro ps pd hch
    rw [List.map_cons, List.chain_cons] at hch
    obtain ⟨h1, h2⟩ := hch
    simp only [key] at h1 h2
    unfold pairLe at h1
    simp only [] at h1
    have hsrc : ps + (s - ps) = s := by omega
    simp only [encodeBatchGo, decodeBatchGo, List.length_cons, hsrc]
    by_cases he : s = ps
    · have hpd : pd ≤ d := by omega
      have hd : pd + (d - pd) = d := by omega
      simp only [he, ne_eq, not_true_eq_false, if_false, ite_false, hd,
        List.cons.injEq, true_and]
      rw [← he]
      exact ih s d h2
    · have hd : 0 + (d - 0) = d := by omega
      simp only [ne_eq, he, not_false_iff, if_true, ite_true, hd,
        List.cons.injEq, true_and]
      exact ih s d h2

theorem sortBatch_perm {P : Type} (l : List (Nat × Nat × P)) :
    List.Perm (sortBatch l) l :=
  List.perm_insertionSort keyRel l

theorem sortBatch_sorted {P : Type} (l : List (Nat × Nat × P)) :
    List.Pairwise keyRel (sortBatch l) :=
  List.sorted_insertionSort keyRel l

theorem chain_key_of_sorted {P : Type} {l : List (Nat × Nat × P)}
    (h : List.Pairwise keyRel l) : List.Chain pairLe (0, 0) (l.map key) := by
  have h2 : List.Pairwise pairLe (l.map key) := by
    rw [List.pairwise_map]
    exact h
  have h3 : List.Pairwise pairLe ((0, 0) :: l.map key) := by
    refine List.Pairwise.cons ?_ h2
    intro x _
    unfold pairLe
    omega
  exact h3.chain

/-- Full decode of a sorted batch by its own length. -/
theorem decodeBatch_sortBatch {P : Type} (b : List (Nat × Nat × P)) :
    decodeBatch b.length (encodeBatch (sortBatch b)) = sortBatch b := by
  have hl : (sortBatch b).length = b.length := (sortBatch_perm b).length_eq
  unfold decodeBatch encodeBatch
  rw [← hl]
  exact decodeBatchGo_encodeBatchGo (sortBatch b) 0 0
    (chain_key_of_sorted (sortBatch_sorted b))

theorem spInv_new {P : Type} (B : Nat) (hB : 1 ≤ B) :
    SPInv B [] (spNew P B) := by
  refine ⟨hB, rfl, by simpa [spNew] using hB, [], by simp [spNew], by simp,
    by simp, by simp [spNew]⟩

theorem spInv_push {P : Type} {B : Nat} {pushed : List (Nat × Nat × P)}
    {s : SPState P} (t : Nat × Nat × P) (h : SPInv B pushed s) :
    SPInv B (pushed ++ [t]) (spPush s t) := by
  obtain ⟨hB, hbsz, hblen, bs, hfiles, hlen, hlast, hflat⟩ := h
  unfold spPush
  by_cases hc : (s.batch ++ [t]).length ≥ s.batchSize
  · have hlen1 : (s.batch ++ [t]).length = B := by
      simp only [List.length_append, List.length_cons, List.length_nil] at hc ⊢
      omega
    have hne : (s.batch ++ [t]).isEmpty = false := by simp
    simp only [hc, if_true, spDump, hne, Bool.false_eq_true, if_false, ite_false]
    refine ⟨hB, hbsz, by simpa using hB, bs ++ [s.batch ++ [t]], ?_, ?_, ?_, ?_⟩
    · simp [hfiles]
    · intro b hb
      rcases List.mem_append.mp hb with hb | hb
      · exact hlen b hb
      · simp at hb
        rw [hb]
        exact hlen1
    · intro _
      exact hlen1
    · show (bs ++ [s.batch ++ [t]]).flatten ++ [] = pushed ++ [t]
      rw [List.append_nil, List.flatten_append, List.flatten_cons,
        List.flatten_nil, List.append_nil, ← List.append_assoc, hflat]
  · simp only [hc, if_false, ite_false]
    refine ⟨hB, hbsz, ?_, bs, hfiles, hlen, hlast, ?_⟩
    · show (s.batch ++ [t]).length < B
      simp only [List.length_append, List.length_cons, List.length_nil] at hc ⊢
      omega
    · show bs.flatten ++ (s.batch ++ [t]) = pushed ++ [t]
      rw [← List.append_assoc, hflat]

theorem spInv_pushAll {P : Type} (ts : List (Nat × Nat × P)) :
    ∀ {B : Nat} {pushed : List (Nat × Nat × P)} {s : SPState P},
      SPInv B pushed s → SPInv B (pushed ++ ts) (spPushAll s ts) := by
  induction ts with
  | nil => intro B pushed s h; simpa [spPushAll] using h
  | cons t ts ih =>
    intro B pushed s h
    have h2 := ih (spInv_push t h)
    show SPInv B (pushed ++ t :: ts) (spPushAll (spPush s t) ts)
    rwa [← List.singleton_append, ← List.append_assoc]

/-- Replaying every encoded batch file with the recorded lengths recovers
    the sorted batches. -/
theorem decode_replay {P : Type} (bs2 : List (List (Nat × Nat × P)))
    (lastLen Bsz : Nat)
    (hlen2 : ∀ i, (hi : i < bs2.length) →
      (if i + 1 = bs2.length then lastLen else Bsz) = bs2[i].length) :
    (List.range (bs2.map fun b => encodeBatch (sortBatch b)).length).map
        (fun i => decodeBatch
          (if i + 1 = (bs2.map fun b => encodeBatch (sortBatch b)).length
            then lastLen else Bsz)
          ((bs2.map fun b => encodeBatch (sortBatch b)).getD i []))
      = bs2.map sortBatch := by
  apply List.ext_getElem
  · simp
  · intro i h1 h2
    simp only [List.getElem_map, List.getElem_range, List.length_map,
      List.length_range] at h1 h2 ⊢
    have hi : i < bs2.length := by simpa using h2
    rw [List.getD_eq_getElem _ _ (by simpa using hi), List.getElem_map,
      hlen2 i hi, decodeBatch_sortBatch]

/-- After the final dump, the replayed batch iterators recover exactly the
    sorted batches, whose concatenation is the pushed sequence. -/
theorem spIterLists_eq {P : Type} {B : Nat} {pushed : List (Nat × Nat × P)}
    {s : SPState P} (h : SPInv B pushed s) :
    ∃ bs2 : List (List (Nat × Nat × P)),
      spIterLists s = bs2.map sortBatch ∧ bs2.flatten = pushed := by
  obtain ⟨hB, hbsz, hblen, bs, hfiles, hlen, hlast, hflat⟩ := h
  by_cases hbatch : s.batch.isEmpty
  · have hbe : s.batch = [] := List.isEmpty_iff.mp hbatch
    refine ⟨bs, ?_, ?_⟩
    · unfold spIterLists
      have hdump : spDump s = s := by simp [spDump, hbatch]
      rw [hdump, hfiles, hbsz]
      apply decode_replay
      intro i hi
      have hbne : bs ≠ [] := by
        intro hbs
        rw [hbs] at hi
        simp at hi
      have hlenB : bs[i].length = B := hlen _ (List.getElem_mem hi)
      rw [hlenB]
      split
      · exact hlast hbne
      · rfl
    · rw [← hflat, hbe, List.append_nil]
  · have hbne2 : s.batch.isEmpty = false := by
      simp only [Bool.not_eq_true] at hbatch
      exact hbatch
    refine ⟨bs ++ [s.batch], ?_, ?_⟩
    · unfold spIterLists
      have hdump : spDump s =
          { s with files := s.files ++ [encodeBatch (sortBatch s.batch)],
                   lastBatchLen := s.batch.length, batch := [] } := by
        simp [spDump, hbne2]
      have hfl2 : s.files ++ [encodeBatch (sortBatch s.batch)]
          = (bs ++ [s.batch]).map fun b => encodeBatch (sortBatch b) := by
        rw [hfiles, List.map_append, List.map_cons, List.map_nil]
      rw [hdump]
      show (List.range (s.files ++ [encodeBatch (sortBatch s.batch)]).length).map
          (fun i => decodeBatch
            (if i + 1 = (s.files ++ [encodeBatch (sortBatch s.batch)]).length
              then s.batch.length else s.batchSize)
            ((s.files ++ [encodeBatch (sortBatch s.batch)]).getD i []))
        = (bs ++ [s.batch]).map sortBatch
      rw [hfl2, hbsz]
      apply decode_replay
      intro i hi
      have hil : i < bs.length + 1 := by simpa using hi
      rcases Nat.lt_or_ge i bs.length with hlt | hge
      · have hgetl : (bs ++ [s.batch])[i] = bs[i] :=
          List.getElem_append_left hlt
        have hlenB : bs[i].length = B := hlen _ (List.getElem_mem hlt)
        have hne : ¬ (i + 1 = (bs ++ [s.batch]).length) := by
          simp only [List.length_append, List.length_cons, List.length_nil]
          omega
        rw [hgetl, hlenB]
        simp only [hne, if_false, ite_false]
      · have hieq : i = bs.length := by omega
        have heq : i + 1 = (bs ++ [s.batch]).length := by
          simp only [List.length_append, List.length_cons, List.length_nil]
          omega
        have hgetl : (bs ++ [s.batch])[i] = s.batch := by
          rw [List.getElem_append_right hge]
          simp [hieq]
        rw [hgetl]
        simp only [heq, if_true, ite_true]
    · rw [List.flatten_append, List.flatten_cons, List.flatten_nil,
        List.append_nil, hflat]

theorem flatten_kmergeNew {P : Type} (ls : List (List (Nat × Nat × P))) :
    ((kmergeNew ls).map fun c => c.1 :: c.2).flatten = ls.flatten := by
  induction ls with
  | nil => rfl
  | cons l rest ih =>
    cases l with
    | nil => simpa [kmergeNew] using ih
    | cons x t => simpa [kmergeNew] using ih

theorem kmergeNew_chains {P : Type} (ls : List (List (Nat × Nat × P))) :
    ∀ ch ∈ kmergeNew ls, (ch.1 :: ch.2) ∈ ls := by
  intro ch hch
  unfold kmergeNew at hch
  rw [List.mem_filterMap] at hch
  obtain ⟨l, hl, hfl⟩ := hch
  cases l with
  | nil => simp at hfl
  | cons x t =>
    simp only [Option.some.injEq] at hfl
    rw [← hfl]
    exact hl

theorem flatten_map_sortBatch_perm {P : Type}
    (bs : List (List (Nat × Nat × P))) :
    List.Perm (bs.map sortBatch).flatten bs.flatten := by
  induction bs with
  | nil => simp
  | cons b rest ih =>
    simp only [List.map_cons, List.flatten_cons]
    exact (sortBatch_perm b).append ih

theorem spRun_perm {P : Type} (pushes : List (Nat × Nat × P)) (B : Nat)
    (hB : 1 ≤ B) : List.Perm (spRun P B pushes) pushes := by
  have hinv : SPInv B pushes (spPushAll (spNew P B) pushes) := by
    have := spInv_pushAll pushes (spInv_new B hB)
    simpa using this
  obtain ⟨bs2, hlists, hflat⟩ := spIterLists_eq hinv
  have hperm : List.Perm (spRun P B pushes)
      ((kmergeNew (spIterLists (spPushAll (spNew P B) pushes))).map
        (fun c => c.1 :: c.2)).flatten :=
    kmergeRunF_perm _ _ (le_refl _)
  rw [flatten_kmergeNew, hlists] at hperm
  exact hperm.trans
    ((flatten_map_sortBatch_perm bs2).trans (hflat ▸ List.Perm.refl _))

theorem spRun_sorted {P : Type} (pushes : List (Nat × Nat × P)) (B : Nat)
    (hB : 1 ≤ B) : List.Pairwise keyRel (spRun P B pushes) := by
  have hinv : SPInv B pushes (spPushAll (spNew P B) pushes) := by
    have := spInv_pushAll pushes (spInv_new B hB)
    simpa using this
  obtain ⟨bs2, hlists, hflat⟩ := spIterLists_eq hinv
  apply kmergeRunF_sorted _ _ (le_refl _)
  intro ch hch
  have hmem := kmergeNew_chains _ ch hch
  rw [hlists] at hmem
  rw [List.mem_map] at hmem
  obtain ⟨b, _, hb⟩ := hmem
  rw [← hb]
  exact sortBatch_sorted b

/-- Claim C3 (amended): for every payload type, every sequence of pushed
    triples and every batch size at least 1, the merged iterator yields the
    triples in non-decreasing (src, dst) order, it yields a permutation of
    the pushed triples, and in particular their number is exactly the number
    pushed. -/
theorem claim_C3 {P : Type} (pushes : List (Nat × Nat × P)) (B : Nat)
    (hB : 1 ≤ B) :
    List.Pairwise keyRel (spRun P B pushes) ∧
    List.Perm (spRun P B pushes) pushes ∧
    (spRun P B pushes).length = pushes.length :=
  ⟨spRun_sorted pushes B hB, spRun_perm pushes B hB,
    (spRun_perm pushes B hB).length_eq⟩

/-- Witness for claim C3 at a concrete run. -/
theorem claim_C3_witness :
    List.Pairwise keyRel (spRun Unit 2 [(1, 2, ()), (0, 3, ())]) ∧
    List.Perm (spRun Unit 2 [(1, 2, ()), (0, 3, ())]) [(1, 2, ()), (0, 3, ())] ∧
    (spRun Unit 2 [(1, 2, ()), (0, 3, ())]).length
      = ([(1, 2, ()), (0, 3, ())] : List (Nat × Nat × Unit)).length :=
  claim_C3 [(1, 2, ()), (0, 3, ())] 2 (by norm_num)

/-- Claim C3 counterexample: with batch size 0 (which SortPairs::new
    accepts), every push dumps a singleton batch file, but iter() replays
    every non-final batch file with length batch_size = 0, so pushed triples
    are lost: pushing two triples yields only one. -/
theorem claim_C3_counterexample :
    (spRun Unit 0 [(0, 0, ()), (0, 0, ())]).length = 1 ∧ (2 : Nat) ≠ 1 := by
  exact ⟨rfl, by decide⟩

/-- Claim C7 counterexample: pushing one triple into a SortPairs with batch
    size 1 creates one batch file; dropping the instance afterwards leaves
    that file on disk (Drop only calls dump). -/
theorem claim_C7_counterexample :
    ((spDrop (spPush (spNew Unit 1) (0, 0, ()))).files).length = 1 := rfl

/-- Claim C7 (amended): dropping a SortPairs removes no batch file — Drop
    only dumps the pending batch, so the previously created files persist
    unchanged (and possibly one more is created); cancel_batches() is the
    operation that removes all created batch files. -/
theorem claim_C7 {P : Type} (s : SPState P) :
    (spDrop s).files.take s.files.length = s.files ∧
    s.files.length ≤ (spDrop s).files.length ∧
    (spCancelBatches s).files = [] := by
  refine ⟨?_, ?_, rfl⟩
  · unfold spDrop spDump
    by_cases h : s.batch.isEmpty
    · simp [h]
    · simp only [h, Bool.false_eq_true, if_false, ite_false]
      exact List.take_left s.files _
  · unfold spDrop spDump
    by_cases h : s.batch.isEmpty
    · simp [h]
    · simp only [h, Bool.false_eq_true, if_false, ite_false]
      simp

theorem cooRows_length : ∀ (k c : Nat) (ps : List (Nat × Nat)),
    (cooRows k c ps).length = k := by
  intro k
  induction k with
  | zero => intro c ps; rfl
  | succ k ih => intro c ps; simp [cooRows, ih]

theorem filter_src_eq_nil {c : Nat} :
    ∀ (ps : List (Nat × Nat)), (∀ p ∈ ps, c < p.1) →
      ps.filter (fun p => decide (p.1 = c)) = [] := by
  intro ps h
  induction ps with
  | nil => rfl
  | cons a t ih =>
    have ha := h a (List.mem_cons_self a t)
    have hne : ¬ (a.1 = c) := by omega
    rw [List.filter_cons, decide_eq_false hne]
    simp only [Bool.false_eq_true, if_false, ite_false]
    exact ih fun p hp => h p (List.mem_cons_of_mem a hp)

theorem takeWhile_eq_filter_src {c : Nat} :
    ∀ (ps : List (Nat × Nat)), List.Pairwise pairLe ps →
      (∀ p ∈ ps, c ≤ p.1) →
      ps.takeWhile (fun p => decide (p.1 = c))
        = ps.filter (fun p => decide (p.1 = c)) := by
  intro ps
  induction ps with
  | nil => intro _ _; rfl
  | cons a t ih =>
    intro hp hlb
    by_cases ha : a.1 = c
    · rw [List.takeWhile_cons, List.filter_cons, decide_eq_true ha]
      simp only [if_true, ite_true]
      exact congrArg (a :: ·)
        (ih hp.tail fun p hmem => hlb p (List.mem_cons_of_mem a hmem))
    · have hgt : c < a.1 := by
        have := hlb a (List.mem_cons_self a t)
        omega
      have hnil : t.filter (fun p => decide (p.1 = c)) = [] := by
        apply filter_src_eq_nil
        intro p hmem
        have hrel := List.rel_of_pairwise_cons hp hmem
        unfold pairLe at hrel
        omega
      rw [List.takeWhile_cons, List.filter_cons, decide_eq_false ha]
      simp only [Bool.false_eq_true, if_false, ite_false, hnil]

theorem dropWhile_takeWhile_filter {c : Nat} :
    ∀ (ps : List (Nat × Nat)), List.Pairwise pairLe ps →
      (ps.dropWhile (fun p => decide (p.1 < c))).takeWhile
          (fun p => decide (p.1 = c))
        = ps.filter (fun p => decide (p.1 = c)) := by
  intro ps
  induction ps with
  | nil => intro _; rfl
  | cons a t ih =>
    intro hp
    by_cases ha : a.1 < c
    · have hne : ¬ (a.1 = c) := by omega
      rw [List.dropWhile_cons, List.filter_cons, decide_eq_true ha,
        decide_eq_false hne]
      simp only [Bool.false_eq_true, if_true, if_false, ite_true, ite_false]
      exact ih hp.tail
    · rw [List.dropWhile_cons, decide_eq_false ha]
      simp only [Bool.false_eq_true, if_false, ite_false]
      apply takeWhile_eq_filter_src (a :: t) hp
      intro p hmem
      rcases List.mem_cons.mp hmem with heq | hmem2
      · rw [heq]; omega
      · have hrel := List.rel_of_pairwise_cons hp hmem2
        unfold pairLe at hrel
        omega

theorem cooRows_getD :
    ∀ (k j c : Nat) (ps : List (Nat × Nat)), List.Pairwise pairLe ps →
      j < k →
      (cooRows k c ps).getD j []
        = (ps.filter (fun p => decide (p.1 = c + j))).map (fun p => p.2) := by
  intro k
  induction k with
  | zero => intro j c ps _ hj; omega
  | succ k ih =>
    intro j c ps hp hj
    cases j with
    | zero =>
      show ((ps.dropWhile (fun p => decide (p.1 < c))).takeWhile
          (fun p => decide (p.1 = c))).map (fun p => p.2) = _
      rw [dropWhile_takeWhile_filter ps hp, Nat.add_zero]
    | succ j =>
      show (cooRows k (c + 1) _).getD j [] = _
      have hsub1 : List.Sublist (ps.dropWhile (fun p => decide (p.1 < c))) ps :=
        List.dropWhile_sublist _
      have hsub2 : List.Sublist
          ((ps.dropWhile (fun p => decide (p.1 < c))).dropWhile
            (fun p => decide (p.1 = c)))
          ps :=
        List.Sublist.trans (List.dropWhile_sublist _) hsub1
      rw [ih j (c + 1) _ (hp.sublist hsub2) (by omega)]
      have hdecomp1 := List.takeWhile_append_dropWhile
        (p := fun p : Nat × Nat => decide (p.1 < c)) (l := ps)
      have hdecomp2 := List.takeWhile_append_dropWhile
        (p := fun p : Nat × Nat => decide (p.1 = c))
        (l := ps.dropWhile (fun p => decide (p.1 < c)))
      have hq : c + 1 + j = c + (j + 1) := by omega
      rw [hq]
      have hstep : ps.filter (fun p => decide (p.1 = c + (j + 1)))
          = ((ps.dropWhile (fun p => decide (p.1 < c))).dropWhile
              (fun p => decide (p.1 = c))).filter
              (fun p => decide (p.1 = c + (j + 1))) := by
        conv_lhs => rw [← hdecomp1]
        rw [List.filter_append]
        have h1 : (ps.takeWhile (fun p => decide (p.1 < c))).filter
            (fun p => decide (p.1 = c + (j + 1))) = [] := by
          rw [List.filter_eq_nil_iff]
          intro p hmem
          have := List.mem_takeWhile_imp hmem
          simp only [decide_eq_true_eq] at this
          simp only [decide_eq_true_eq]
          omega
        rw [h1, List.nil_append]
        conv_lhs => rw [← hdecomp2]
        rw [List.filter_append]
        have h2 : ((ps.dropWhile (fun p => decide (p.1 < c))).takeWhile
            (fun p => decide (p.1 = c))).filter
            (fun p => decide (p.1 = c + (j + 1))) = [] := by
          rw [List.filter_eq_nil_iff]
          intro p hmem
          have := List.mem_takeWhile_imp hmem
          simp only [decide_eq_true_eq] at this
          simp only [decide_eq_true_eq]
          omega
        rw [h2, List.nil_append]
      rw [← hstep]

theorem cooRows_mem {k j c : Nat} {ps : List (Nat × Nat)} {v : Nat}
    (hp : List.Pairwise pairLe ps) (hj : j < k) :
    v ∈ (cooRows k c ps).getD j [] ↔ (c + j, v) ∈ ps := by
  rw [cooRows_getD k j c ps hp hj]
  rw [List.mem_map]
  constructor
  · rintro ⟨p, hmem, hpv⟩
    rw [List.mem_filter] at hmem
    obtain ⟨hmem, hpe⟩ := hmem
    simp only [decide_eq_true_eq] at hpe
    have : p = (c + j, v) := by
      obtain ⟨p1, p2⟩ := p
      simp only at hpe hpv
      rw [hpe, hpv]
    rwa [this] at hmem
  · intro hmem
    exact ⟨(c + j, v), List.mem_filter.mpr ⟨hmem, by simp⟩, rfl⟩

theorem transposeArcs_mem (G : List (List Nat)) (x y : Nat) :
    (x, y, ()) ∈ transposeArcs G ↔ (y < G.length ∧ x ∈ G.getD y []) := by
  unfold transposeArcs
  rw [List.mem_flatMap]
  constructor
  · rintro ⟨u, hu, hmem⟩
    rw [List.mem_range] at hu
    rw [List.mem_map] at hmem
    obtain ⟨v, hv, hveq⟩ := hmem
    simp only [Prod.mk.injEq] at hveq
    obtain ⟨h1, h2, _⟩ := hveq
    rw [h1, h2] at hv
    rw [h2] at hu
    exact ⟨hu, hv⟩
  · rintro ⟨hy, hx⟩
    exact ⟨y, List.mem_range.mpr hy, List.mem_map.mpr ⟨x, hx, rfl⟩⟩

theorem mem_map_key_unit {l : List (Nat × Nat × Unit)} {x y : Nat} :
    (x, y) ∈ l.map key ↔ (x, y, ()) ∈ l := by
  rw [List.mem_map]
  constructor
  · rintro ⟨t, hmem, ht⟩
    obtain ⟨t1, t2, t3⟩ := t
    simp only [key, Prod.mk.injEq] at ht
    obtain ⟨h1, h2⟩ := ht
    rw [← h1, ← h2]
    exact hmem
  · intro hmem
    exact ⟨(x, y, ()), hmem, rfl⟩

theorem transposeM_length (G : List (List Nat)) (B : Nat) :
    (transposeM G B).length = G.length :=
  cooRows_length _ _ _

theorem transposeM_mem (G : List (List Nat)) (B : Nat) (hB : 1 ≤ B)
    (u v : Nat) (hu : u < G.length) :
    v ∈ (transposeM G B).getD u []
      ↔ (v < G.length ∧ u ∈ G.getD v []) := by
  unfold transposeM
  have hsorted : List.Pairwise pairLe
      ((spRun Unit B (transposeArcs G)).map key) := by
    rw [List.pairwise_map]
    exact spRun_sorted (transposeArcs G) B hB
  rw [cooRows_mem hsorted hu, Nat.zero_add, mem_map_key_unit,
    (spRun_perm (transposeArcs G) B hB).mem_iff, transposeArcs_mem]

/-- Claim C2: for every graph on nodes 0..N-1 (successor entries below N)
    and every batch size B at least 1, transposing twice with batch size B
    yields a graph with the same node count and exactly the same adjacency
    sets as the original. -/
theorem claim_C2 (G : List (List Nat)) (B : Nat) (hB : 1 ≤ B)
    (hN : ∀ l ∈ G, ∀ x ∈ l, x < G.length) :
    (transposeM (transposeM G B) B).length = G.length ∧
    (∀ u v, v ∈ (transposeM (transposeM G B) B).getD u []
      ↔ v ∈ G.getD u []) := by
  have hT1len : (transposeM G B).length = G.length := transposeM_length G B
  constructor
  · rw [transposeM_length, hT1len]
  · intro u v
    by_cases hu : u < G.length
    · rw [transposeM_mem (transposeM G B) B hB u v (by rw [hT1len]; exact hu)]
      constructor
      · rintro ⟨hv, hmem⟩
        rw [hT1len] at hv
        rw [transposeM_mem G B hB v u hv] at hmem
        exact hmem.2
      · intro hmem
        have hrow : G.getD u [] ∈ G := by
          rw [List.getD_eq_getElem _ _ hu]
          exact List.getElem_mem hu
        have hv : v < G.length := hN _ hrow v hmem
        refine ⟨by rw [hT1len]; exact hv, ?_⟩
        rw [transposeM_mem G B hB v u hv]
        exact ⟨hu, hmem⟩
    · have h1 : (transposeM (transposeM G B) B).getD u [] = [] := by
        apply List.getD_eq_default
        rw [transposeM_length, hT1len]
        omega
      have h2 : G.getD u [] = [] := by
        apply List.getD_eq_default
        omega
      rw [h1, h2]

/-- Witness for claim C2 on the graph of the transpose round-trip scenario
    (arcs (0,1),(0,2),(1,2),(1,3),(2,4),(3,4), N = 5, batch size 3). -/
theorem claim_C2_witness :
    (transposeM (transposeM [[1, 2], [2, 3], [4], [4], []] 3) 3).length = 5 ∧
    (1 ∈ (transposeM (transposeM [[1, 2], [2, 3], [4], [4], []] 3) 3).getD 0 []
      ↔ 1 ∈ ([[1, 2], [2, 3], [4], [4], []] : List (List Nat)).getD 0 []) :=
  ⟨(claim_C2 [[1, 2], [2, 3], [4], [4], []] 3 (by norm_num) (by decide)).1,
    (claim_C2 [[1, 2], [2, 3], [4], [4], []] 3 (by norm_num) (by decide)).2 0 1⟩

/-- Claim C9 (failing evaluation): on a fresh permuted_graph.rs adapter with
    num_nodes = 2 over the empty pair stream, next() leaves curr_node at its
    initial value usize::MAX (the wrapping_add result is discarded) and
    yields node id usize::MAX instead of 0; the coo_to_graph.rs adapter on
    the same state correctly yields node 0 with curr_node incremented. -/
theorem claim_C9 :
    pgNext (pgFresh 2 []) = some (usizeMAX, pgFresh 2 []) ∧
    usizeMAX ≠ 0 ∧
    cooNextNode (pgFresh 2 []) =
      some (0, { pgFresh 2 [] with currNode := 0 }) := by
  refine ⟨rfl, by decide, rfl⟩

/-- Claim C8 counterexample: with labels [5, 5] and the (post-shuffle)
    input order [1, 0], the output [1, 0] satisfies the contract of the
    unstable label-only sort used on llp.rs line 187, yet within the single
    group of equal labels the nodes are not in increasing node-id order. -/
theorem claim_C8_counterexample :
    sortByLabelContract [5, 5] [1, 0] [1, 0] ∧ ¬ labelIdSorted [5, 5] [1, 0] := by
  constructor
  · exact ⟨by decide, by decide⟩
  · intro h
    unfold labelIdSorted at h
    have := List.rel_of_sorted_cons h 0 (by decide)
    revert this
    decide

/-- Claim C8 (amended): any output of the final unstable label-only sort is
    a permutation of the nodes that is sorted by label, so all nodes sharing
    a label form one contiguous run; the order inside a run is unspecified
    (no stable node-id tie-break). -/
theorem claim_C8 (labels input output : List Nat)
    (h : sortByLabelContract labels input output) :
    output.Perm input ∧
    output.Sorted (fun a b => labelOf labels a ≤ labelOf labels b) ∧
    (∀ i j k, i ≤ j → j ≤ k → k < output.length →
      labelOf labels (output.getD i 0) = labelOf labels (output.getD k 0) →
      labelOf labels (output.getD j 0) = labelOf labels (output.getD i 0)) := by
  obtain ⟨hperm, hsort⟩ := h
  refine ⟨hperm, hsort, ?_⟩
  intro i j k hij hjk hk hik
  have mono : ∀ a b, a ≤ b → b < output.length →
      labelOf labels (output.getD a 0) ≤ labelOf labels (output.getD b 0) := by
    intro a b hab hb
    rcases Nat.eq_or_lt_of_le hab with rfl | hlt
    · exact le_refl _
    · have ha : a < output.length := lt_trans hlt hb
      rw [List.getD_eq_getElem _ _ ha, List.getD_eq_getElem _ _ hb]
      have := (List.pairwise_iff_get.mp hsort) ⟨a, ha⟩ ⟨b, hb⟩ hlt
      simpa using this
  have h1 := mono i j hij (lt_of_le_of_lt hjk hk)
  have h2 := mono j k hjk hk
  omega

/-- Witness for claim C8 at a concrete instance of the sort contract. -/
theorem claim_C8_witness :
    ([0, 1] : List Nat).Perm [1, 0] ∧
    ([0, 1] : List Nat).Sorted (fun a b => labelOf [5, 5] a ≤ labelOf [5, 5] b) ∧
    (∀ i j k, i ≤ j → j ≤ k → k < ([0, 1] : List Nat).length →
      labelOf [5, 5] (([0, 1] : List Nat).getD i 0) =
        labelOf [5, 5] (([0, 1] : List Nat).getD k 0) →
      labelOf [5, 5] (([0, 1] : List Nat).getD j 0) =
        labelOf [5, 5] (([0, 1] : List Nat).getD i 0)) :=
  claim_C8 [5, 5] [1, 0] [0, 1] ⟨by decide, by decide⟩

/-- Claim C4 (failing evaluation): on the prototype reader of bit_stream.rs,
    over a backend holding the single word 1, read_bits(1) shows that the
    first bit of the stream in the reader's own (LSB-first) consumption order
    is a one, so read_unary must return 0 zeros and consume that single bit;
    instead read_unary misses the terminating one (it counts leading, not
    trailing, zeros, and never consumes on its success path), exhausts the
    backend and fails. -/
theorem claim_C4 :
    bsReadBits ⟨[1], 0, 0⟩ 1 = .ok (1, ⟨[], 0, 63⟩) ∧
    bsReadUnary ⟨[1], 0, 0⟩ = .error "BackendIo: end of stream" := by
  constructor
  · rfl
  · rfl

theorem natCode_intCode (x : Int) : natCode (intCode x) = x := by
  unfold intCode natCode
  by_cases hx : 0 ≤ x
  · rw [if_pos hx]
    have h2 : 2 * x.toNat % 2 = 0 := by omega
    rw [if_pos h2]
    omega
  · rw [if_neg hx]
    have h2 : ¬ ((2 * (-x).toNat - 1) % 2 = 0) := by omega
    rw [if_neg h2]
    omega

theorem mergeFuel_eq_merge :
    ∀ (f : Nat) (xs ys : List Nat), xs.length + ys.length ≤ f →
      mergeFuel f xs ys = List.merge xs ys (fun a b => decide (a ≤ b)) := by
  intro f
  induction f with
  | zero =>
    intro xs ys h
    have hx : xs = [] := by
      cases xs with
      | nil => rfl
      | cons a t => simp at h
    have hy : ys = [] := by
      cases ys with
      | nil => rfl
      | cons a t => simp at h
    rw [hx, hy, List.nil_merge]
    rfl
  | succ f ih =>
    intro xs ys h
    cases xs with
    | nil => simp [mergeFuel]
    | cons x xs =>
      cases ys with
      | nil => simp [mergeFuel]
      | cons y ys =>
        rw [List.merge]
        show (if x ≤ y then x :: mergeFuel f xs (y :: ys)
            else y :: mergeFuel f (x :: xs) ys) = _
        by_cases hxy : x ≤ y
        · rw [if_pos hxy, decide_eq_true hxy]
          simp only [if_true, ite_true]
          rw [ih xs (y :: ys) (by simp at h ⊢; omega)]
        · rw [if_neg hxy, decide_eq_false hxy]
          simp only [Bool.false_eq_true, if_false, ite_false]
          rw [ih (x :: xs) ys (by simp at h ⊢; omega)]

theorem mergeSorted_perm (xs ys : List Nat) :
    List.Perm (mergeSorted xs ys) (xs ++ ys) := by
  rw [mergeSorted, mergeFuel_eq_merge _ _ _ (le_refl _)]
  exact List.merge_perm_append _

theorem natLe_trans : ∀ (a b c : Nat), (fun a b : Nat => decide (a ≤ b)) a b →
    (fun a b : Nat => decide (a ≤ b)) b c →
    (fun a b : Nat => decide (a ≤ b)) a c := by
  intro a b c h1 h2
  simp only [decide_eq_true_eq] at h1 h2 ⊢
  omega

theorem natLe_total : ∀ (a b : Nat),
    ((fun a b : Nat => decide (a ≤ b)) a b ||
      (fun a b : Nat => decide (a ≤ b)) b a) := by
  intro a b
  simp only [Bool.or_eq_true, decide_eq_true_eq]
  omega

theorem pairwise_le_of_decide {l : List Nat}
    (h : List.Pairwise (fun a b : Nat => a ≤ b) l) :
    List.Pairwise (fun a b : Nat => decide (a ≤ b) = true) l :=
  h.imp (by simp)

theorem pairwise_decide_to_le {l : List Nat}
    (h : List.Pairwise (fun a b : Nat => decide (a ≤ b) = true) l) :
    List.Pairwise (fun a b : Nat => a ≤ b) l :=
  h.imp (by simp)

theorem mergeSorted_sorted {xs ys : List Nat}
    (hx : List.Pairwise (fun a b : Nat => a ≤ b) xs)
    (hy : List.Pairwise (fun a b : Nat => a ≤ b) ys) :
    List.Pairwise (fun a b : Nat => a ≤ b) (mergeSorted xs ys) := by
  rw [mergeSorted, mergeFuel_eq_merge _ _ _ (le_refl _)]
  exact pairwise_decide_to_le
    (List.sorted_merge natLe_trans natLe_total xs ys
      (pairwise_le_of_decide hx) (pairwise_le_of_decide hy))

theorem countLeading_le (b : Bool) : ∀ l : List Bool, countLeading b l ≤ l.length := by
  intro l
  induction l with
  | nil => simp [countLeading]
  | cons x t ih =>
    unfold countLeading
    split
    · simpa using ih
    · simp

theorem take_countLeading (b : Bool) :
    ∀ l : List Bool, l.take (countLeading b l)
      = List.replicate (countLeading b l) b := by
  intro l
  induction l with
  | nil => simp [countLeading]
  | cons x t ih =>
    unfold countLeading
    split
    · next hx =>
      rw [List.take_succ_cons, ih, hx, List.replicate_succ]
    · simp

theorem head_after_countLeading (b : Bool) :
    ∀ (l : List Bool) (z : Bool) (t : List Bool),
      l.drop (countLeading b l) = z :: t → z = !b := by
  intro l
  induction l with
  | nil => intro z t h; simp at h
  | cons x xs ih =>
    intro z t h
    unfold countLeading at h
    split at h
    · exact ih z t h
    · next hx =>
      simp only [List.drop_zero] at h
      cases h1 : h
      cases b <;> cases x <;> simp_all

theorem maskFilter_nil_mask (r : List Nat) : maskFilter r [] = [] := by
  cases r <;> rfl

theorem maskFilter_append :
    ∀ (m1 : List Bool) (r1 : List Nat) (m2 : List Bool) (r2 : List Nat),
      m1.length = r1.length →
      maskFilter (r1 ++ r2) (m1 ++ m2)
        = maskFilter r1 m1 ++ maskFilter r2 m2 := by
  intro m1
  induction m1 with
  | nil =>
    intro r1 m2 r2 h
    have : r1 = [] := by
      cases r1 with
      | nil => rfl
      | cons a t => simp at h
    rw [this]
    simp [maskFilter_nil_mask]
  | cons b bs ih =>
    intro r1 m2 r2 h
    cases r1 with
    | nil => simp at h
    | cons x xs =>
      simp only [List.cons_append, maskFilter, List.append_eq]
      rw [ih xs m2 r2 (by simpa using h)]
      split <;> simp

theorem maskFilter_replicate_true :
    ∀ (n : Nat) (r : List Nat), maskFilter r (List.replicate n true) = r.take n := by
  intro n
  induction n with
  | zero => intro r; rw [List.replicate_zero, maskFilter_nil_mask]; simp
  | succ n ih =>
    intro r
    cases r with
    | nil => simp [maskFilter]
    | cons x xs =>
      rw [List.replicate_succ]
      show maskFilter (x :: xs) (true :: List.replicate n true) = _
      simp only [maskFilter, if_true, ite_true]
      rw [ih xs, List.take_succ_cons]

theorem maskFilter_replicate_false :
    ∀ (n : Nat) (r : List Nat), maskFilter r (List.replicate n false) = [] := by
  intro n
  induction n with
  | zero => intro r; rw [List.replicate_zero, maskFilter_nil_mask]
  | succ n ih =>
    intro r
    cases r with
    | nil => simp [maskFilter]
    | cons x xs =>
      rw [List.replicate_succ]
      show maskFilter (x :: xs) (false :: List.replicate n false) = _
      simp only [maskFilter, Bool.false_eq_true, if_false, ite_false]
      exact ih xs

theorem maskFilter_map_filter (p : Nat → Bool) :
    ∀ r : List Nat, maskFilter r (r.map p) = r.filter p := by
  intro r
  induction r with
  | nil => rfl
  | cons x xs ih =>
    simp only [List.map_cons, maskFilter, List.filter_cons]
    rw [ih]

theorem applyBlocks_encBlocksGo :
    ∀ (f : Nat) (mask : List Bool) (ref : List Nat),
      mask.length ≤ f → mask.length = ref.length →
      applyBlocks ref (encBlocksGo f mask) true = maskFilter ref mask := by
  intro f
  induction f with
  | zero =>
    intro mask ref hf hlen
    have hm : mask = [] := List.length_eq_zero.mp (by omega)
    have hr : ref = [] := List.length_eq_zero.mp (by omega)
    rw [hm, hr]
    rfl
  | succ f ih =>
    intro mask ref hf hlen
    cases mask with
    | nil =>
      have hr : ref = [] := List.length_eq_zero.mp (by simpa using hlen.symm)
      rw [hr]
      rfl
    | cons m0 mrest =>
      have hcle : countLeading true (m0 :: mrest) ≤ (m0 :: mrest).length :=
        countLeading_le _ _
      have htakec : (m0 :: mrest).take (countLeading true (m0 :: mrest))
          = List.replicate (countLeading true (m0 :: mrest)) true :=
        take_countLeading _ _
      have hdecompc :=
        List.take_append_drop (countLeading true (m0 :: mrest)) (m0 :: mrest)
      have hrefc :=
        List.take_append_drop (countLeading true (m0 :: mrest)) ref
      cases hl1 : (m0 :: mrest).drop (countLeading true (m0 :: mrest)) with
      | nil =>
        have hmask : (m0 :: mrest)
            = List.replicate (countLeading true (m0 :: mrest)) true := by
          conv_lhs => rw [← hdecompc]
          rw [htakec, hl1, List.append_nil]
        have hceq : countLeading true (m0 :: mrest) = (m0 :: mrest).length := by
          conv_rhs => rw [hmask]
          simp
        have henc : encBlocksGo (f + 1) (m0 :: mrest) = [] := by
          simp only [encBlocksGo, hl1]
        rw [henc]
        have happ : applyBlocks ref [] true = ref := by simp [applyBlocks]
        rw [happ, hmask, maskFilter_replicate_true]
        have : countLeading true (m0 :: mrest) = ref.length := by omega
        rw [this, List.take_length]
      | cons z l1t =>
        have hz : z = false := by
          have := head_after_countLeading true (m0 :: mrest) z l1t hl1
          simpa using this
        subst hz
        have hsge : 1 ≤ countLeading false (false :: l1t) := by
          unfold countLeading
          simp
        have htakes : (false :: l1t).take (countLeading false (false :: l1t))
            = List.replicate (countLeading false (false :: l1t)) false :=
          take_countLeading _ _
        have hdecomps :=
          List.take_append_drop (countLeading false (false :: l1t)) (false :: l1t)
        have hmask : (m0 :: mrest)
            = List.replicate (countLeading true (m0 :: mrest)) true
              ++ (false :: l1t) := by
          conv_lhs => rw [← hdecompc]
          rw [htakec, hl1]
        have hlen1 : (false :: l1t).length
            = (m0 :: mrest).length - countLeading true (m0 :: mrest) := by
          rw [← hl1, List.length_drop]
        have hsle : countLeading false (false :: l1t) ≤ (false :: l1t).length :=
          countLeading_le _ _
        cases hl2 : (false :: l1t).drop (countLeading false (false :: l1t)) with
        | nil =>
          have hl1eq : (false :: l1t)
              = List.replicate (countLeading false (false :: l1t)) false := by
            conv_lhs => rw [← hdecomps]
            rw [htakes, hl2, List.append_nil]
          have henc : encBlocksGo (f + 1) (m0 :: mrest)
              = [countLeading true (m0 :: mrest)] := by
            simp only [encBlocksGo, hl1, hl2]
          rw [henc]
          have happ : applyBlocks ref [countLeading true (m0 :: mrest)] true
              = ref.take (countLeading true (m0 :: mrest)) := by
            simp [applyBlocks]
          rw [happ]
          conv_rhs => rw [hmask, ← hrefc]
          rw [maskFilter_append _ _ _ _ (by simp [List.length_take]; omega)]
          rw [maskFilter_replicate_true, hl1eq, maskFilter_replicate_false,
            List.append_nil, List.take_take]
          simp
        | cons w l2t =>
          have henc : encBlocksGo (f + 1) (m0 :: mrest)
              = countLeading true (m0 :: mrest)
                :: countLeading false (false :: l1t)
                :: encBlocksGo f (w :: l2t) := by
            simp only [encBlocksGo, hl1, hl2]
          rw [henc]
          have happ : applyBlocks ref
              (countLeading true (m0 :: mrest)
                :: countLeading false (false :: l1t)
                :: encBlocksGo f (w :: l2t)) true
              = ref.take (countLeading true (m0 :: mrest)) ++
                  applyBlocks
                    ((ref.drop (countLeading true (m0 :: mrest))).drop
                      (countLeading false (false :: l1t)))
                    (encBlocksGo f (w :: l2t)) true := by
            simp [applyBlocks]
          rw [happ]
          have hl2len : (w :: l2t).length
              = (false :: l1t).length - countLeading false (false :: l1t) := by
            rw [← hl2, List.length_drop]
          have hih := ih (w :: l2t)
            ((ref.drop (countLeading true (m0 :: mrest))).drop
              (countLeading false (false :: l1t)))
            (by
              simp only [List.length_cons, List.length_drop]
                at hf hl2len hlen1 hsle hcle hsge ⊢
              omega)
            (by
              simp only [List.length_drop, List.length_cons]
                at hl2len hlen1 hlen hsle hcle hsge ⊢
              omega)
          rw [hih]
          conv_rhs => rw [hmask, ← hrefc]
          rw [maskFilter_append _ _ _ _ (by simp [List.length_take]; omega)]
          rw [maskFilter_replicate_true, List.take_take]
          have hl1decomp : (false :: l1t)
              = List.replicate (countLeading false (false :: l1t)) false
                ++ (w :: l2t) := by
            conv_lhs => rw [← hdecomps]
            rw [htakes, hl2]
          have hrefc2 := List.take_append_drop
            (countLeading false (false :: l1t))
            (ref.drop (countLeading true (m0 :: mrest)))
          conv_rhs => rw [hl1decomp, ← hrefc2]
          rw [maskFilter_append _ _ _ _
            (by simp [List.length_take, List.length_drop]; omega)]
          rw [maskFilter_replicate_false, List.nil_append]
          simp

/-- splitRuns partitions the list: flattening the runs restores it. -/
theorem flatten_splitRuns : ∀ l : List Nat, (splitRuns l).flatten = l := by
  intro l
  induction l with
  | nil => rfl
  | cons x t ih =>
    cases hs : splitRuns t with
    | nil =>
      rw [hs, List.flatten_nil] at ih
      simp only [splitRuns, hs, List.flatten_cons, List.flatten_nil,
        List.append_nil]
      rw [← ih]
    | cons r1 rs =>
      rw [hs] at ih
      cases r1 with
      | nil =>
        simp only [List.flatten_cons, List.nil_append] at ih
        simp only [splitRuns, hs, List.flatten_cons, List.nil_append,
          List.singleton_append]
        rw [ih]
      | cons y r0 =>
        simp only [List.flatten_cons, List.cons_append] at ih
        by_cases hy : y = x + 1
        · simp only [splitRuns, hs, if_pos hy, List.flatten_cons,
            List.cons_append]
          rw [ih]
        · simp only [splitRuns, hs, if_neg hy, List.flatten_cons,
            List.cons_append, List.singleton_append, List.nil_append]
          rw [ih]

/-- Every run element is an element of the split list. -/
theorem mem_of_mem_splitRuns {l : List Nat} {r : List Nat} {a : Nat}
    (hr : r ∈ splitRuns l) (ha : a ∈ r) : a ∈ l := by
  rw [← flatten_splitRuns l]
  exact List.mem_flatten.mpr ⟨r, hr, ha⟩

/-- Every run produced by splitRuns is a nonempty block of consecutive
  integers. -/
theorem splitRuns_shape : ∀ l : List Nat, ∀ r ∈ splitRuns l,
    ∃ s n, 0 < n ∧ r = List.range' s n := by
  intro l
  induction l with
  | nil =>
    intro r hr
    simp only [splitRuns, List.not_mem_nil] at hr
  | cons x t ih =>
    intro r hr
    cases hs : splitRuns t with
    | nil =>
      simp only [splitRuns, hs, List.mem_singleton] at hr
      exact ⟨x, 1, Nat.one_pos, by rw [hr, List.range'_one]⟩
    | cons r1 rs =>
      cases r1 with
      | nil =>
        obtain ⟨s, n, hn, he⟩ := ih []
          (by rw [hs]; exact List.mem_cons_self _ _)
        have hlen := congrArg List.length he
        simp only [List.length_nil, List.length_range'] at hlen
        omega
      | cons y r0 =>
        obtain ⟨s, n, hn, he⟩ :=
          ih (y :: r0) (by rw [hs]; exact List.mem_cons_self _ _)
        obtain ⟨m, rfl⟩ : ∃ m, n = m + 1 := ⟨n - 1, by omega⟩
        rw [List.range'_succ] at he
        have hy2 : y = s := by
          have := congrArg (fun l => l.headD 0) he
          simpa using this
        subst hy2
        have hr0 : y :: r0 = List.range' y (m + 1) := by
          rw [List.range'_succ]
          exact he
        by_cases hy : y = x + 1
        · simp only [splitRuns, hs, if_pos hy, List.mem_cons] at hr
          rcases hr with hr | hr
          · refine ⟨x, m + 2, by omega, ?_⟩
            rw [hr, List.range'_succ]
            rw [show x + 1 = y from hy.symm, ← hr0]
          · exact ih r (by rw [hs]; exact List.mem_cons_of_mem _ hr)
        · simp only [splitRuns, hs, if_neg hy, List.mem_cons] at hr
          rcases hr with hr | hr | hr
          · exact ⟨x, 1, Nat.one_pos, by rw [hr, List.range'_one]⟩
          · exact ⟨y, m + 1, by omega, by rw [hr, hr0]⟩
          · exact ih r (by rw [hs]; exact List.mem_cons_of_mem _ hr)

/-- On a strictly increasing list, the runs are pairwise ordered: each run
  ends no later than the next one starts. -/
theorem runs_pairwise : ∀ l : List Nat, l.Pairwise (· < ·) →
    (splitRuns l).Pairwise
      (fun r1 r2 => r1.headD 0 + r1.length ≤ r2.headD 0) := by
  intro l
  induction l with
  | nil => intro _; simp [splitRuns]
  | cons x t ih =>
    intro hp
    rw [List.pairwise_cons] at hp
    obtain ⟨hx, hpt⟩ := hp
    have iht := ih hpt
    cases hs : splitRuns t with
    | nil => simp [splitRuns, hs]
    | cons r1 rs =>
      rw [hs] at iht
      cases r1 with
      | nil =>
        obtain ⟨s, n, hn, he⟩ := splitRuns_shape t []
          (by rw [hs]; exact List.mem_cons_self _ _)
        have hlen := congrArg List.length he
        simp only [List.length_nil, List.length_range'] at hlen
        omega
      | cons y r0 =>
        have hheadmem : ∀ r2 ∈ rs, r2.headD 0 ∈ t := by
          intro r2 h2
          obtain ⟨s, n, hn, he⟩ := splitRuns_shape t r2
            (by rw [hs]; exact List.mem_cons_of_mem _ h2)
          obtain ⟨m, rfl⟩ : ∃ m, n = m + 1 := ⟨n - 1, by omega⟩
          rw [List.range'_succ] at he
          apply mem_of_mem_splitRuns
            (l := t) (by rw [hs]; exact List.mem_cons_of_mem _ h2)
          rw [he]
          simp
        rw [List.pairwise_cons] at iht
        obtain ⟨ihead, itail⟩ := iht
        by_cases hy : y = x + 1
        · simp only [splitRuns, hs, if_pos hy]
          rw [List.pairwise_cons]
          refine ⟨?_, itail⟩
          intro r2 h2
          have hb := ihead r2 h2
          simp only [List.headD_cons, List.length_cons] at hb ⊢
          omega
        · simp only [splitRuns, hs, if_neg hy]
          rw [List.pairwise_cons]
          constructor
          · intro r2 h2
            rcases List.mem_cons.mp h2 with h2 | h2
            · have hyt : y ∈ t := by
                apply mem_of_mem_splitRuns
                  (l := t) (by rw [hs]; exact List.mem_cons_self _ _)
                exact List.mem_cons_self _ _
              have hlt := hx y hyt
              rw [h2]
              simp only [List.headD_cons, List.length_cons,
                List.length_nil]
              omega
            · have hh := hheadmem r2 h2
              have hlt := hx _ hh
              simp only [List.headD_cons, List.length_cons,
                List.length_nil]
              omega
          · exact List.pairwise_cons.mpr ⟨ihead, itail⟩

/-- Flattening a filtered run list gives a sublist of the full flatten. -/
theorem flatten_filter_sublist {α : Type} (p : List α → Bool) :
    ∀ L : List (List α), ((L.filter p).flatten).Sublist L.flatten := by
  intro L
  induction L with
  | nil => simp
  | cons r L ih =>
    by_cases hp : p r
    · rw [List.filter_cons_of_pos hp, List.flatten_cons, List.flatten_cons]
      exact ih.append_left r
    · rw [List.filter_cons_of_neg hp, List.flatten_cons]
      exact ih.trans (List.sublist_append_right r L.flatten)

/-- Pairwise-ordered runs are chained from any bound below the first head. -/
theorem runsChained_some_of_pairwise :
    ∀ L : List (List Nat),
      L.Pairwise (fun r1 r2 => r1.headD 0 + r1.length ≤ r2.headD 0) →
      ∀ pe, (∀ r ∈ L, pe ≤ r.headD 0) → runsChained (some pe) L := by
  intro L
  induction L with
  | nil => intro _ pe _; trivial
  | cons r L ih =>
    intro hp pe hpe
    rw [List.pairwise_cons] at hp
    refine ⟨hpe r (List.mem_cons_self _ _), ?_⟩
    exact ih hp.2 _ fun r2 h2 => hp.1 r2 h2

/-- Interval decoding inverts interval encoding on chained runs of
  consecutive integers of length at least L. -/
theorem decInts_encInts (L v : Nat) :
    ∀ (runs : List (List Nat)) (prev : Option Nat) (rest : List Nat),
      (∀ r ∈ runs, ∃ s n, 0 < n ∧ L ≤ n ∧ r = List.range' s n) →
      runsChained prev runs →
      decInts L v prev runs.length (encInts L v prev runs ++ rest)
        = some (runs, rest) := by
  intro runs
  induction runs with
  | nil =>
    intro prev rest _ _
    cases prev <;> rfl
  | cons r runs ih =>
    intro prev rest hshape hchain
    obtain ⟨s, n, hn, hLn, hr⟩ := hshape r (List.mem_cons_self _ _)
    obtain ⟨m, rfl⟩ : ∃ m, n = m + 1 := ⟨n - 1, by omega⟩
    have hhead : r.headD 0 = s := by rw [hr, List.range'_succ]; rfl
    have hlen : r.length = m + 1 := by rw [hr, List.length_range']
    have hL' : L ≤ r.length := by rw [hlen]; exact hLn
    have hshape2 : ∀ r2 ∈ runs, ∃ s2 n2, 0 < n2 ∧ L ≤ n2 ∧
        r2 = List.range' s2 n2 :=
      fun r2 h2 => hshape r2 (List.mem_cons_of_mem _ h2)
    cases prev with
    | none =>
      have hrec := ih (some (r.headD 0 + r.length)) rest hshape2 hchain
      simp only [encInts, List.cons_append, List.length_cons, decInts,
        natCode_intCode]
      have hs' : ((v : Int) + ((r.headD 0 : Int) - v)).toNat = r.headD 0 := by
        omega
      rw [hs', Nat.sub_add_cancel hL', hrec, hhead, hlen, ← hr]
    | some pe =>
      have hrec := ih (some (r.headD 0 + r.length)) rest hshape2 hchain.2
      simp only [encInts, List.cons_append, List.length_cons, decInts]
      have hs' : pe + (r.headD 0 - pe) = r.headD 0 := by
        have := hchain.1
        omega
      rw [hs', Nat.sub_add_cancel hL', hrec, hhead, hlen, ← hr]

/-- Gap decoding inverts gap encoding on a chain of nondecreasing values. -/
theorem decResGaps_encResGaps :
    ∀ (xs : List Nat) (prev : Nat) (rest : List Nat),
      List.Chain (· ≤ ·) prev xs →
      decResGaps prev xs.length (encResGaps prev xs ++ rest)
        = some (xs, rest) := by
  intro xs
  induction xs with
  | nil => intro prev rest _; rfl
  | cons y xs ih =>
    intro prev rest hc
    rw [List.chain_cons] at hc
    simp only [encResGaps, List.cons_append, List.length_cons, decResGaps]
    have h1 : prev + (y - prev) = y := by
      have := hc.1
      omega
    rw [h1, ih y rest hc.2]

/-- Residual decoding inverts residual encoding on a nondecreasing list. -/
theorem decResiduals_encResiduals (v : Nat) :
    ∀ (xs : List Nat) (rest : List Nat),
      xs.Chain' (· ≤ ·) →
      decResiduals v xs.length (encResiduals v xs ++ rest)
        = some (xs, rest) := by
  intro xs rest hc
  cases xs with
  | nil => rfl
  | cons x xs =>
    simp only [encResiduals, List.cons_append, List.length_cons,
      decResiduals, natCode_intCode]
    have h1 : ((v : Int) + ((x : Int) - v)).toNat = x := by omega
    rw [h1, decResGaps_encResGaps xs x rest hc]

/-- Pairwise-ordered runs are chained. -/
theorem runsChained_of_pairwise :
    ∀ L : List (List Nat),
      L.Pairwise (fun r1 r2 => r1.headD 0 + r1.length ≤ r2.headD 0) →
      runsChained none L := by
  intro L hp
  cases L with
  | nil => trivial
  | cons r L =>
    show runsChained (some (r.headD 0 + r.length)) L
    rw [List.pairwise_cons] at hp
    exact runsChained_some_of_pairwise L hp.2 _ fun r2 h2 => hp.1 r2 h2

/-- Decoding the copy blocks of a full mask recovers the masked filter. -/
theorem applyBlocks_encBlocks (p : Nat → Bool) (ref : List Nat) :
    applyBlocks ref (encBlocks (ref.map p)) true = ref.filter p := by
  rw [encBlocks, applyBlocks_encBlocksGo _ _ _ (le_refl _) (by simp),
    maskFilter_map_filter]

/-- A strictly increasing list has no duplicates. -/
theorem pairwise_lt_nodup {l : List Nat} (h : l.Pairwise (· < ·)) :
    l.Nodup :=
  h.imp Nat.ne_of_lt

/-- The two one-sided membership filters of duplicate-free lists are
  permutations of each other. -/
theorem filter_mem_perm {A B : List Nat} (hA : A.Nodup) (hB : B.Nodup) :
    List.Perm (A.filter fun x => decide (x ∈ B))
      (B.filter fun x => decide (x ∈ A)) := by
  rw [List.perm_ext_iff_of_nodup (hA.filter _) (hB.filter _)]
  intro a
  simp only [List.mem_filter, decide_eq_true_eq]
  tauto

/-- Splitting a list into runs and partitioning the runs by any predicate
  keeps all elements. -/
theorem split_filters_perm (q : List Nat → Bool) (extras : List Nat) :
    List.Perm ((((splitRuns extras).filter q).flatten)
      ++ (((splitRuns extras).filter fun r => !(q r)).flatten)) extras := by
  have h1 := (List.filter_append_perm q (splitRuns extras)).flatten
  rw [List.flatten_append] at h1
  have h2 : (splitRuns extras).flatten = extras := flatten_splitRuns extras
  rw [h2] at h1
  exact h1

/-- Flattening any filtered selection of the runs is sorted. -/
theorem flatten_filter_sorted (q : List Nat → Bool) (extras : List Nat)
    (h : extras.Pairwise (· < ·)) :
    (((splitRuns extras).filter q).flatten).Pairwise (· ≤ ·) := by
  have hsub := flatten_filter_sublist q (splitRuns extras)
  rw [flatten_splitRuns] at hsub
  exact (List.Pairwise.sublist hsub h).imp Nat.le_of_lt

/-- The three-way merge of the decoder rebuilds the successor list. -/
theorem merge3_eq_of_perm (succ : List Nat) (p : Nat → Bool)
    (a b c : List Nat)
    (hsucc : succ.Pairwise (· < ·))
    (ha : List.Perm a (succ.filter p))
    (hbc : List.Perm (b ++ c) (succ.filter fun x => !(p x)))
    (hA : a.Pairwise (· ≤ ·)) (hB : b.Pairwise (· ≤ ·))
    (hC : c.Pairwise (· ≤ ·)) :
    mergeSorted a (mergeSorted b c) = succ := by
  have hsle : succ.Pairwise (· ≤ ·) := hsucc.imp Nat.le_of_lt
  have hperm : List.Perm (mergeSorted a (mergeSorted b c)) succ :=
    ((mergeSorted_perm a (mergeSorted b c)).trans
      ((List.Perm.append_left a (mergeSorted_perm b c)).trans
        ((ha.append hbc).trans (List.filter_append_perm p succ))))
  exact List.eq_of_perm_of_sorted hperm
    (mergeSorted_sorted hA (mergeSorted_sorted hB hC)) hsle

/-- The residual count computed by the decoder equals the number of
  residuals the encoder wrote. -/
theorem resCount_eq (L : Nat) (succ refList : List Nat)
    (hs : succ.Nodup) (hr : refList.Nodup) :
    succ.length - (refList.filter fun x => decide (x ∈ succ)).length
      - ((((splitRuns (succ.filter fun x => !(decide (x ∈ refList)))).filter
          fun run => decide (L ≤ run.length)).map List.length).sum)
      = (((splitRuns (succ.filter fun x => !(decide (x ∈ refList)))).filter
          fun run => !(decide (L ≤ run.length))).flatten).length := by
  have h1 : (refList.filter fun x => decide (x ∈ succ)).length
      = (succ.filter fun x => decide (x ∈ refList)).length :=
    (filter_mem_perm hr hs).length_eq
  have h2 := (List.filter_append_perm
    (fun x => decide (x ∈ refList)) succ).length_eq
  rw [List.length_append] at h2
  have h3 := (split_filters_perm (fun run => decide (L ≤ run.length))
    (succ.filter fun x => !(decide (x ∈ refList)))).length_eq
  rw [List.length_append] at h3
  have h4 := List.length_flatten
    ((splitRuns (succ.filter fun x => !(decide (x ∈ refList)))).filter
      fun run => decide (L ≤ run.length))
  omega

/-- The long runs kept for interval coding have the required shape. -/
theorem longs_shape (L : Nat) (extras : List Nat) :
    ∀ r ∈ (splitRuns extras).filter fun run => decide (L ≤ run.length),
      ∃ s n, 0 < n ∧ L ≤ n ∧ r = List.range' s n := by
  intro r hr
  rw [List.mem_filter] at hr
  obtain ⟨s, n, hn, he⟩ := splitRuns_shape extras r hr.1
  refine ⟨s, n, hn, ?_, he⟩
  have h2 := hr.2
  rw [decide_eq_true_eq] at h2
  rw [he, List.length_range'] at h2
  exact h2

/-- The long runs are chained when the extras are strictly increasing. -/
theorem longs_chained (L : Nat) (extras : List Nat)
    (h : extras.Pairwise (· < ·)) :
    runsChained none ((splitRuns extras).filter
      fun run => decide (L ≤ run.length)) := by
  apply runsChained_of_pairwise
  exact List.Pairwise.sublist (List.filter_sublist _) (runs_pairwise extras h)

/-- getD positions inside a prefix agree with the extended list. -/
theorem prefix_getD {α : Type} (we tl : List α) (d : α) (i : Nat)
    (hi : i < we.length) : we.getD i d = (we ++ tl).getD i d := by
  rw [List.getD_eq_getElem?_getD, List.getD_eq_getElem?_getD,
    List.getElem?_append_left hi]

/-- getD at an in-range position is a member. -/
theorem getD_mem_of_lt {α : Type} (l : List α) (d : α) (i : Nat)
    (hi : i < l.length) : l.getD i d ∈ l := by
  rw [List.getD_eq_getElem l d hi]
  exact List.getElem_mem hi

/-- A conditional on the trivially true test 0 = 0 takes its first branch. -/
theorem if_zero_eq_zero {α : Type} (a b : α) :
    (if (0 : Nat) = 0 then a else b) = a := rfl

/-- The decoder's block-count bound check always passes on a well-formed
  stream, where the remaining tokens start with the announced blocks. -/
theorem ite_length_le_append {α β : Type} (a b : List α) (x y : β) :
    (if a.length ≤ (a ++ b).length then x else y) = x := by
  rw [if_pos]
  rw [List.length_append]
  exact Nat.le_add_right _ _

/-- Filtering on non-membership in the empty reference keeps everything. -/
theorem filter_not_mem_nil (succ : List Nat) :
    (succ.filter fun x => !(decide (x ∈ ([] : List Nat)))) = succ := by
  simp

/-- Merging with an empty left operand is the identity. -/
theorem mergeSorted_nil_left (x : List Nat) : mergeSorted [] x = x := by
  cases x <;> rfl

/-- Residual count when no reference list is used. -/
theorem resCount0_eq (L : Nat) (succ : List Nat) :
    succ.length
      - (((splitRuns succ).filter
          fun run => decide (L ≤ run.length)).map List.length).sum
      = (((splitRuns succ).filter
          fun run => !(decide (L ≤ run.length))).flatten).length := by
  have h3 := (split_filters_perm
    (fun run => decide (L ≤ run.length)) succ).length_eq
  rw [List.length_append] at h3
  have h4 := List.length_flatten
    ((splitRuns succ).filter fun run => decide (L ≤ run.length))
  omega

/-- The two-way merge of the decoder rebuilds the successor list when no
  reference copying happened. -/
theorem merge2_eq_of_perm (succ : List Nat) (b c : List Nat)
    (hsucc : succ.Pairwise (· < ·))
    (hbc : List.Perm (b ++ c) succ)
    (hB : b.Pairwise (· ≤ ·)) (hC : c.Pairwise (· ≤ ·)) :
    mergeSorted b c = succ :=
  List.eq_of_perm_of_sorted ((mergeSorted_perm b c).trans hbc)
    (mergeSorted_sorted hB hC) (hsucc.imp Nat.le_of_lt)

/-- One-record roundtrip: decoding an encoded record against a decoder
  window extending the encoder window recovers the successor list and
  leaves exactly the trailing tokens. -/
theorem decodeNode_encodeNode (W L : Nat)
    (choose : List (List Nat) → List Nat → Nat) (v : Nat)
    (we tl : List (List Nat)) (succ rest : List Nat)
    (hchoose : choose we succ ≤ we.length)
    (hwin : ∀ r ∈ we ++ tl, r.Pairwise (· < ·))
    (hsucc : succ.Pairwise (· < ·)) :
    decodeNode W L v (we ++ tl) (encodeNode W L choose v we succ ++ rest)
      = some (succ, rest) := by
  have hnodup : succ.Nodup := pairwise_lt_nodup hsucc
  by_cases hd0 : succ.length = 0
  · have hsn : succ = [] := List.length_eq_zero.mp hd0
    subst hsn
    simp [encodeNode, decodeNode]
  · by_cases hW : W = 0
    · simp only [encodeNode, decodeNode, if_neg hd0, if_pos hW,
        if_zero_eq_zero, if_true, decide_not, filter_not_mem_nil,
        List.length_nil, Nat.sub_zero,
        List.singleton_append, List.cons_append, List.nil_append,
        List.append_assoc]
      rw [decInts_encInts L v _ none _ (longs_shape L succ)
        (longs_chained L succ hsucc)]
      simp only []
      rw [resCount0_eq L succ]
      rw [decResiduals_encResiduals v _ rest (List.Pairwise.chain'
        (flatten_filter_sorted _ succ hsucc))]
      simp only []
      rw [mergeSorted_nil_left]
      rw [merge2_eq_of_perm succ _ _ hsucc (split_filters_perm _ succ)
        (flatten_filter_sorted _ succ hsucc)
        (flatten_filter_sorted _ succ hsucc)]
    · by_cases hr : choose we succ = 0
      · simp only [encodeNode, decodeNode, if_neg hd0, if_neg hW, hr,
          if_zero_eq_zero, if_true, decide_not, filter_not_mem_nil,
          List.length_nil, Nat.sub_zero,
          List.singleton_append, List.cons_append, List.nil_append,
          List.append_assoc]
        rw [decInts_encInts L v _ none _ (longs_shape L succ)
          (longs_chained L succ hsucc)]
        simp only []
        rw [resCount0_eq L succ]
        rw [decResiduals_encResiduals v _ rest (List.Pairwise.chain'
          (flatten_filter_sorted _ succ hsucc))]
        simp only []
        rw [mergeSorted_nil_left]
        rw [merge2_eq_of_perm succ _ _ hsucc (split_filters_perm _ succ)
          (flatten_filter_sorted _ succ hsucc)
          (flatten_filter_sorted _ succ hsucc)]
      · have hrpos : 1 ≤ choose we succ := Nat.one_le_iff_ne_zero.mpr hr
        have hrlt : choose we succ - 1 < we.length := by omega
        have hrefwd : (we ++ tl).getD (choose we succ - 1) []
            = we.getD (choose we succ - 1) [] :=
          (prefix_getD we tl [] _ hrlt).symm
        have hrefmem : we.getD (choose we succ - 1) [] ∈ we ++ tl := by
          have h1 : choose we succ - 1 < (we ++ tl).length := by
            rw [List.length_append]
            omega
          have h2 := getD_mem_of_lt (we ++ tl) [] _ h1
          rw [hrefwd] at h2
          exact h2
        have href : (we.getD (choose we succ - 1) []).Pairwise (· < ·) :=
          hwin _ hrefmem
        have hrefnodup := pairwise_lt_nodup href
        have hE : (succ.filter fun x =>
            !(decide (x ∈ we.getD (choose we succ - 1) []))).Pairwise
              (· < ·) := hsucc.filter _
        simp only [encodeNode, decodeNode, if_neg hd0, if_neg hW,
          if_neg hr, decide_not,
          List.singleton_append, List.cons_append, List.nil_append,
          List.append_assoc]
        rw [ite_length_le_append, List.take_left, List.drop_left, hrefwd,
          applyBlocks_encBlocks]
        simp only []
        rw [decInts_encInts L v _ none _ (longs_shape L _)
          (longs_chained L _ hE)]
        simp only []
        rw [resCount_eq L succ _ hnodup hrefnodup]
        rw [decResiduals_encResiduals v _ rest (List.Pairwise.chain'
          (flatten_filter_sorted _ _ hE))]
        simp only []
        rw [merge3_eq_of_perm succ
          (fun x => decide (x ∈ we.getD (choose we succ - 1) [])) _ _ _
          hsucc (filter_mem_perm hrefnodup hnodup)
          (split_filters_perm _ _)
          ((href.filter _).imp Nat.le_of_lt)
          (flatten_filter_sorted _ _ hE)
          (flatten_filter_sorted _ _ hE)]

/-- Every list in the evolved window comes from the pushed lists or the
  initial window. -/
theorem windowAfter_mem (W : Nat) :
    ∀ (ss w : List (List Nat)) (r : List Nat),
      r ∈ windowAfter W ss w → r ∈ ss ∨ r ∈ w := by
  intro ss
  induction ss with
  | nil => intro w r h; exact Or.inr h
  | cons s ss ih =>
    intro w r h
    rcases ih ((s :: w).take W) r h with h2 | h2
    · exact Or.inl (List.mem_cons_of_mem _ h2)
    · have h3 := List.mem_of_mem_take h2
      rcases List.mem_cons.mp h3 with h4 | h4
      · exact Or.inl (by rw [h4]; exact List.mem_cons_self _ _)
      · exact Or.inr h4

/-- Whole-chunk roundtrip: decoding the stream of a chunk encoded from a
  window that is a prefix of the decoder window recovers the chunk. -/
theorem decodeNodes_encodeNodes (W L : Nat)
    (choose : List (List Nat) → List Nat → Nat)
    (hchoose : ∀ w s, choose w s ≤ w.length) :
    ∀ (chunk : List (List Nat)) (v : Nat) (we tl : List (List Nat))
      (rest : List Nat),
      (∀ r ∈ we ++ tl, r.Pairwise (· < ·)) →
      (∀ s ∈ chunk, s.Pairwise (· < ·)) →
      decodeNodes W L v (we ++ tl) chunk.length
          (encodeNodes W L choose v we chunk ++ rest)
        = some (chunk, rest) := by
  intro chunk
  induction chunk with
  | nil => intro v we tl rest _ _; rfl
  | cons s chunk ih =>
    intro v we tl rest hwin hchunk
    simp only [encodeNodes, List.length_cons, List.append_assoc]
    simp only [decodeNodes]
    rw [decodeNode_encodeNode W L choose v we tl s _ (hchoose we s) hwin
      (hchunk s (List.mem_cons_self _ _))]
    simp only []
    have htake : (s :: (we ++ tl)).take W
        = (s :: we).take W ++ tl.take (W - (s :: we).length) := by
      rw [show s :: (we ++ tl) = (s :: we) ++ tl from rfl,
        List.take_append_eq_append_take]
    have hw2 : ∀ r ∈ (s :: we).take W ++ tl.take (W - (s :: we).length),
        r.Pairwise (· < ·) := by
      intro r hr
      rw [← htake] at hr
      have hr2 := List.mem_of_mem_take hr
      rcases List.mem_cons.mp hr2 with h | h
      · rw [h]; exact hchunk s (List.mem_cons_self _ _)
      · exact hwin r h
    have hc2 : ∀ s2 ∈ chunk, s2.Pairwise (· < ·) :=
      fun s2 h2 => hchunk s2 (List.mem_cons_of_mem _ h2)
    rw [htake, ih (v + 1) ((s :: we).take W)
      (tl.take (W - (s :: we).length)) rest hw2 hc2]

/-- Decoding a count split into two phases concatenates the results, the
  second phase starting from the evolved window. -/
theorem decodeNodes_append (W L : Nat) :
    ∀ (n1 n2 v : Nat) (w : List (List Nat)) (toks : List Nat)
      (ss1 : List (List Nat)) (rest1 : List Nat)
      (ss2 : List (List Nat)) (rest2 : List Nat),
      decodeNodes W L v w n1 toks = some (ss1, rest1) →
      decodeNodes W L (v + n1) (windowAfter W ss1 w) n2 rest1
        = some (ss2, rest2) →
      decodeNodes W L v w (n1 + n2) toks = some (ss1 ++ ss2, rest2) := by
  intro n1
  induction n1 with
  | zero =>
    intro n2 v w toks ss1 rest1 ss2 rest2 h1 h2
    simp only [decodeNodes, Option.some.injEq, Prod.mk.injEq] at h1
    obtain ⟨h1a, h1b⟩ := h1
    subst h1a h1b
    rw [Nat.zero_add]
    rw [Nat.add_zero] at h2
    simpa using h2
  | succ n1 ih =>
    intro n2 v w toks ss1 rest1 ss2 rest2 h1 h2
    simp only [decodeNodes] at h1
    cases hdn : decodeNode W L v w toks with
    | none => rw [hdn] at h1; simp at h1
    | some p =>
      obtain ⟨s, rest3⟩ := p
      rw [hdn] at h1
      simp only [] at h1
      cases hdn2 : decodeNodes W L (v + 1) ((s :: w).take W) n1 rest3 with
      | none => rw [hdn2] at h1; simp at h1
      | some q =>
        obtain ⟨ss3, rest4⟩ := q
        rw [hdn2] at h1
        simp only [Option.some.injEq, Prod.mk.injEq] at h1
        obtain ⟨h1a, h1b⟩ := h1
        subst h1a h1b
        have h2' : decodeNodes W L ((v + 1) + n1)
            (windowAfter W ss3 ((s :: w).take W)) n2 rest4
            = some (ss2, rest2) := by
          rw [show (v + 1) + n1 = v + (n1 + 1) by omega]
          exact h2
        have hrec := ih n2 (v + 1) ((s :: w).take W) rest3 ss3 rest4
          ss2 rest2 hdn2 h2'
        rw [show n1 + 1 + n2 = (n1 + n2) + 1 by omega]
        simp only [decodeNodes]
        rw [hdn]
        simp only []
        rw [hrec]
        simp only []
        rw [List.cons_append]

/-- chunksOfGo of the empty list is empty at any fuel. -/
theorem chunksOfGo_nil {α : Type} (f npc : Nat) :
    chunksOfGo f npc ([] : List α) = [] := by
  cases f <;> rfl

/-- With enough fuel and a positive chunk size, the chunks flatten back to
  the original list. -/
theorem chunksOfGo_flatten {α : Type} :
    ∀ (f npc : Nat) (l : List α), 1 ≤ npc → l.length ≤ f →
      (chunksOfGo f npc l).flatten = l := by
  intro f
  induction f with
  | zero =>
    intro npc l h1 h2
    have hl : l = [] := List.length_eq_zero.mp (by omega)
    rw [hl]
    rfl
  | succ f ih =>
    intro npc l h1 h2
    cases l with
    | nil => rfl
    | cons x xs =>
      show ((x :: xs).take npc
          :: chunksOfGo f npc ((x :: xs).drop npc)).flatten = x :: xs
      rw [List.flatten_cons, ih npc _ h1
        (by rw [List.length_drop]; simp only [List.length_cons] at h2 ⊢; omega),
        List.take_append_drop]

/-- Every chunk except the last has exactly npc elements. -/
theorem chunksOfGo_dropLast {α : Type} :
    ∀ (f npc : Nat) (l : List α), 1 ≤ npc → l.length ≤ f →
      ∀ ch ∈ (chunksOfGo f npc l).dropLast, ch.length = npc := by
  intro f
  induction f with
  | zero =>
    intro npc l h1 h2 ch hch
    have hl : l = [] := List.length_eq_zero.mp (by omega)
    subst hl
    simp [chunksOfGo] at hch
  | succ f ih =>
    intro npc l h1 h2 ch hch
    cases l with
    | nil => simp [chunksOfGo] at hch
    | cons x xs =>
      rw [show chunksOfGo (f + 1) npc (x :: xs) = (x :: xs).take npc
          :: chunksOfGo f npc ((x :: xs).drop npc) from rfl] at hch
      cases hrec : chunksOfGo f npc ((x :: xs).drop npc) with
      | nil => rw [hrec] at hch; simp at hch
      | cons c cs =>
        rw [hrec, List.dropLast_cons_of_ne_nil (by simp)] at hch
        rcases List.mem_cons.mp hch with h | h
        · have hd : (x :: xs).drop npc ≠ [] := by
            intro hnil
            rw [hnil, chunksOfGo_nil] at hrec
            exact absurd hrec (by simp)
          have hlen2 : npc ≤ xs.length + 1 := by
            by_contra hlt
            apply hd
            rw [List.drop_eq_nil_iff]
            simp only [List.length_cons]
            omega
          rw [h, List.length_take]
          simp only [List.length_cons]
          omega
        · apply ih npc ((x :: xs).drop npc) h1
            (by rw [List.length_drop]
                simp only [List.length_cons] at h2 ⊢
                omega) ch
          rw [hrec]
          exact h

/-- Every element of a chunk is an element of the chunked list. -/
theorem mem_of_mem_chunksOf {α : Type} (npc : Nat) (l : List α)
    (h1 : 1 ≤ npc) :
    ∀ ch ∈ chunksOf npc l, ∀ a ∈ ch, a ∈ l := by
  intro ch hch a ha
  rw [← chunksOfGo_flatten l.length npc l h1 (le_refl _)]
  exact List.mem_flatten.mpr ⟨ch, hch, ha⟩

/-- Decoding the concatenated chunk streams of the parallel compressor
  recovers all chunks, provided every non-final chunk is full. -/
theorem decode_encodeChunks (W L : Nat)
    (choose : List (List Nat) → List Nat → Nat)
    (hchoose : ∀ w s, choose w s ≤ w.length) :
    ∀ (chs : List (List (List Nat))) (npc i : Nat) (w : List (List Nat))
      (rest : List Nat),
      (∀ ch ∈ chs.dropLast, ch.length = npc) →
      (∀ ch ∈ chs, ∀ s ∈ ch, s.Pairwise (· < ·)) →
      (∀ r ∈ w, r.Pairwise (· < ·)) →
      decodeNodes W L (npc * i) w ((chs.map List.length).sum)
          (encodeChunks W L choose npc i chs ++ rest)
        = some (chs.flatten, rest) := by
  intro chs
  induction chs with
  | nil =>
    intro npc i w rest _ _ _
    simp only [List.map_nil, List.sum_nil, encodeChunks, List.nil_append,
      List.flatten_nil]
    rfl
  | cons ch chs ihc =>
    intro npc i w rest hlen hrows hw
    have h1 : decodeNodes W L (npc * i) w ch.length
        (encodeNodes W L choose (npc * i) [] ch
          ++ (encodeChunks W L choose npc (i + 1) chs ++ rest))
        = some (ch, encodeChunks W L choose npc (i + 1) chs ++ rest) := by
      have h0 := decodeNodes_encodeNodes W L choose hchoose ch (npc * i)
        [] w (encodeChunks W L choose npc (i + 1) chs ++ rest)
        (by intro r hr; exact hw r (by simpa using hr))
        (hrows ch (List.mem_cons_self _ _))
      simpa using h0
    cases chs with
    | nil =>
      have h2 := decodeNodes_encodeNodes W L choose hchoose ch (npc * i)
        [] w rest
        (by intro r hr; exact hw r (by simpa using hr))
        (hrows ch (List.mem_cons_self _ _))
      simp only [List.map_cons, List.map_nil, List.sum_cons, List.sum_nil,
        Nat.add_zero, encodeChunks, List.append_nil, List.flatten_cons,
        List.flatten_nil]
      simpa using h2
    | cons ch2 chs2 =>
      have hchl : ch.length = npc := hlen ch
        (by rw [List.dropLast_cons_of_ne_nil (by simp)]
            exact List.mem_cons_self _ _)
      have h2 := ihc npc (i + 1) (windowAfter W ch w) rest
        (by intro c hc
            apply hlen c
            rw [List.dropLast_cons_of_ne_nil (by simp)]
            exact List.mem_cons_of_mem _ hc)
        (fun c hc s hs => hrows c (List.mem_cons_of_mem _ hc) s hs)
        (by intro r hr
            rcases windowAfter_mem W ch w r hr with h | h
            · exact hrows ch (List.mem_cons_self _ _) r h
            · exact hw r h)
      have h2' : decodeNodes W L (npc * i + ch.length) (windowAfter W ch w)
          ((List.map List.length (ch2 :: chs2)).sum)
          (encodeChunks W L choose npc (i + 1) (ch2 :: chs2) ++ rest)
          = some ((ch2 :: chs2).flatten, rest) := by
        rw [hchl, ← Nat.mul_succ]
        exact h2
      have h3 := decodeNodes_append W L ch.length
        ((List.map List.length (ch2 :: chs2)).sum) (npc * i) w _ ch _
        ((ch2 :: chs2).flatten) rest h1 h2'
      rw [List.map_cons, List.sum_cons,
        show encodeChunks W L choose npc i (ch :: ch2 :: chs2)
          = encodeNodes W L choose (npc * i) [] ch
            ++ encodeChunks W L choose npc (i + 1) (ch2 :: chs2) from rfl,
        List.flatten_cons, List.append_assoc]
      exact h3

/-- C1: For every graph with strictly increasing adjacency lists, every
  window size, every minimum interval length, every (bounded) reference
  selection strategy and every chunk count between 1 and the number of
  nodes, the bit stream produced by the parallel chunked compressor of
  bvgraph_writer_par.rs decodes to the same graph as the stream produced
  by a single sequential compressor: both decode to the original graph,
  so parallel and sequential compression are observationally equivalent. -/
theorem claim_C1 (W L : Nat) (choose : List (List Nat) → List Nat → Nat)
    (G : List (List Nat)) (C : Nat)
    (hchoose : ∀ w s, choose w s ≤ w.length)
    (hG : ∀ s ∈ G, s.Pairwise (· < ·))
    (hC1 : 1 ≤ C) (hCG : C ≤ G.length) :
    decodeGraph W L G.length (parCompress W L choose G C)
        = decodeGraph W L G.length (seqCompress W L choose G)
      ∧ decodeGraph W L G.length (seqCompress W L choose G) = some G := by
  have hnpc : 1 ≤ G.length / C :=
    (Nat.le_div_iff_mul_le (by omega)).mpr (by omega)
  have hseq : decodeNodes W L 0 [] G.length (seqCompress W L choose G)
      = some (G, []) := by
    have h0 := decodeNodes_encodeNodes W L choose hchoose G 0 [] [] []
      (by intro r hr; simp at hr) hG
    simpa [seqCompress] using h0
  have hseq2 : decodeGraph W L G.length (seqCompress W L choose G)
      = some G := by
    simp only [decodeGraph]
    rw [hseq]
  have hflat : (chunksOf (G.length / C) G).flatten = G :=
    chunksOfGo_flatten G.length (G.length / C) G hnpc (le_refl _)
  have hsum : ((chunksOf (G.length / C) G).map List.length).sum
      = G.length := by
    rw [← List.length_flatten, hflat]
  have hpar : decodeNodes W L 0 [] G.length (parCompress W L choose G C)
      = some (G, []) := by
    have hch := decode_encodeChunks W L choose hchoose
      (chunksOf (G.length / C) G) (G.length / C) 0 [] []
      (chunksOfGo_dropLast G.length (G.length / C) G hnpc (le_refl _))
      (fun ch hc s hs =>
        hG s (mem_of_mem_chunksOf (G.length / C) G hnpc ch hc s hs))
      (by intro r hr; simp at hr)
    rw [hsum, hflat] at hch
    simpa [parCompress] using hch
  have hpar2 : decodeGraph W L G.length (parCompress W L choose G C)
      = some G := by
    simp only [decodeGraph]
    rw [hpar]
  exact ⟨hpar2.trans hseq2.symm, hseq2⟩

/-- Witness for C1 at a concrete graph, window 2, interval threshold 2,
  the always-farthest reference strategy and 2 chunks. -/
theorem claim_C1_witness :
    decodeGraph 2 2 5
        (parCompress 2 2 (fun w _ => w.length)
          [[1, 2], [2, 3], [4], [4], []] 2)
      = decodeGraph 2 2 5
        (seqCompress 2 2 (fun w _ => w.length)
          [[1, 2], [2, 3], [4], [4], []])
    ∧ decodeGraph 2 2 5
        (seqCompress 2 2 (fun w _ => w.length)
          [[1, 2], [2, 3], [4], [4], []])
      = some [[1, 2], [2, 3], [4], [4], []] :=
  claim_C1 2 2 (fun w _ => w.length) [[1, 2], [2, 3], [4], [4], []] 2
    (fun w _ => Nat.le_refl _) (by decide) (by decide) (by decide)

end Webgraph
